import Mathlib

/-!
Verification of the CuttlePool resource pool (`cuttlepool.py`).

This file gives a shallow embedding of the pool's data model and operations.
Resources produced by the factory are modelled as natural numbers handed out
by a counter `nextId` (each factory call creates a distinct object, so object
identity is faithfully modelled by equality of these ids).  A tracker's weak
reference to its wrapper is modelled by `wref : Option Bool`:
`none`   = the tracker has never wrapped a resource (`_weakref is None`),
`some true`  = the current wrapper is still reachable (live weak reference),
`some false` = the wrapper has been garbage collected (dead weak reference).

The embedding is sequential: there is exactly one client thread.  Because no
concurrent producer can signal the `not_empty` condition, a wait inside
`_get` can never be satisfied, so `_get` is modelled as raising
`PoolEmptyError` whenever the pool is empty.  With `timeout = None` the real
code would block forever instead; theorems about the blocking step therefore
assume an integer timeout.  The condition-variable notification performed by
`_put` is recorded in the counter `notifyCount` (one `notify()` call
increments it by one).  `normalize_resource` / `ping` only emit warnings in
the library; `ping` is a user hook and is passed to `get_resource` as a
function parameter, `normalize_resource` mutates nothing in the model.
-/

/-- Errors of the module: the three `CuttlePoolError` subclasses, plus
`pythonError` standing for an unexpected Python exception (for example the
`AttributeError` obtained by calling a method on `None`, or the `ValueError`
of `list.index` when the element is absent) that can only arise on a
corrupted pool state. -/
inductive Err
  | PoolEmptyError
  | PoolFullError
  | UnknownResourceError
  | pythonError
deriving Repr, DecidableEq

instance {ε α : Type} [DecidableEq ε] [DecidableEq α] : DecidableEq (Except ε α) := fun a b =>
  match a, b with
  | .ok x, .ok y =>
    if h : x = y then isTrue (by rw [h]) else isFalse (fun hc => h (Except.ok.inj hc))
  | .error x, .error y =>
    if h : x = y then isTrue (by rw [h]) else isFalse (fun hc => h (Except.error.inj hc))
  | .ok _, .error _ => isFalse (fun hc => Except.noConfusion hc)
  | .error _, .ok _ => isFalse (fun hc => Except.noConfusion hc)

/-- Errors that the constructor `CuttlePool.__init__` can raise. -/
inductive InitErr
  | valueError
  | typeError
deriving Repr, DecidableEq

/-- The Python value passed as the `timeout` argument: `None`, an `int`, or a
non-`None` value whose Python type is not `int` (such as the float `-0.1`). -/
inductive PyTimeout
  | pyNone
  | pyInt (n : Int)
  | pyNonInt
deriving Repr, DecidableEq

/-- The class `_ResourceTracker`: a resource together with the weak reference
to the wrapper currently presenting it. -/
structure _ResourceTracker where
  resource : Nat
  wref : Option Bool
deriving Repr, DecidableEq

/-- Method `_ResourceTracker.available`: the weak reference is `None` or its
referent has been collected. -/
def _ResourceTracker.available (rt : _ResourceTracker) : Bool :=
  match rt.wref with
  | none => true
  | some alive => !alive

/-- The class `Resource`: the client-facing wrapper.  `_resource` is the
reference to the underlying resource (or `None` after close), `_pool` records
whether the wrapper still holds a reference to its pool. -/
structure Resource where
  _resource : Option Nat
  _pool : Bool
deriving Repr, DecidableEq

/-- Method `_ResourceTracker.wrap_resource`: build a fresh wrapper and point
the tracker's weak reference at it.  Returns the updated tracker (the queue
slot aliases the same Python object, so the caller must store it back) and
the wrapper. -/
def _ResourceTracker.wrap_resource (rt : _ResourceTracker) : _ResourceTracker × Resource :=
  ({ rt with wref := some true }, { _resource := some rt.resource, _pool := true })

/-- The class `CuttlePool`.  `capacity`, `overflow` and `timeout` are the
validated constructor arguments; `reference_queue`, `resource_start`,
`resource_end`, `size` and `available` are the mutable pool state
(`size` and `available` are Python ints, hence `Int` here); `nextId` is the
supply of fresh resource ids for the factory; `notifyCount` counts the
`not_empty.notify()` calls issued so far. -/
structure CuttlePool where
  capacity : Nat
  overflow : Nat
  timeout : Option Int
  reference_queue : List (Option _ResourceTracker)
  resource_start : Nat
  resource_end : Nat
  size : Int
  available : Int
  nextId : Nat
  notifyCount : Nat
deriving Repr, DecidableEq

namespace CuttlePool

/-- Property `maxsize`: `capacity + overflow`. -/
def maxsize (p : CuttlePool) : Nat :=
  p.capacity + p.overflow

/-- Method `empty`: the available region holds no tracker. -/
def empty (p : CuttlePool) : Bool :=
  p.available == 0

end CuttlePool

/-- Reading slot `i` of a reference queue (`q[i]` in Python; total, returning
`none` out of bounds, which never happens on well-formed pools). -/
def slot (q : List (Option _ResourceTracker)) (i : Nat) : Option _ResourceTracker :=
  q.getD i none

/-- The pool state produced by a successful `CuttlePool.__init__` call. -/
def mkFreshPool (capacity overflow : Nat) (timeout : Option Int) : CuttlePool :=
  { capacity := capacity
    overflow := overflow
    timeout := timeout
    reference_queue := List.replicate (capacity + overflow) none
    resource_start := 0
    resource_end := 0
    size := 0
    available := 0
    nextId := 0
    notifyCount := 0 }

/-- Constructor `CuttlePool.__init__`: argument validation in source order
(capacity, then overflow, then timeout, where a non-`None` timeout is first
checked to be an `int` and then to be non-negative). -/
def cuttlePoolInit (capacity overflow : Int) (timeout : PyTimeout) : Except InitErr CuttlePool :=
  if capacity ≤ 0 then .error .valueError
  else if overflow < 0 then .error .valueError
  else
    match timeout with
    | .pyNone => .ok (mkFreshPool capacity.toNat overflow.toNat none)
    | .pyNonInt => .error .typeError
    | .pyInt n =>
      if n < 0 then .error .valueError
      else .ok (mkFreshPool capacity.toNat overflow.toNat (some n))

namespace CuttlePool

/-- Method `_unavailable_range`: the indices of the unavailable region, as the
generator yields them.  The generator captures `i`, `j` and the bound before
the loop body runs, so a plain list is a faithful model. -/
def unavailable_range (p : CuttlePool) : List Nat :=
  let i := p.resource_end
  let j := p.resource_start
  let j2 := if j < i ∨ p.empty = true then j + p.maxsize else j
  (List.range (j2 - i)).map (fun k => (i + k) % p.maxsize)

/-- Method `_get`, sequential model.  Python waits on the `not_empty`
condition while the pool is empty; with a single client no `notify` can
arrive, so the wait times out and `PoolEmptyError` is raised (for
`timeout=None` the real code would block forever instead).  Otherwise the
head of the available region is dequeued and wrapped; `wrap_resource`
mutates the tracker aliased by the slot, so the slot is updated in place. -/
def _get (p : CuttlePool) : Except Err (_ResourceTracker × Resource × CuttlePool) :=
  if p.empty then .error .PoolEmptyError
  else
    match slot p.reference_queue p.resource_start with
    | none => .error .pythonError
    | some rt =>
      let (rt2, w) := rt.wrap_resource
      .ok (rt2, w,
        { p with
          reference_queue := p.reference_queue.set p.resource_start (some rt2)
          resource_start := (p.resource_start + 1) % p.maxsize
          available := p.available - 1 })

/-- Method `_get_tracker`: scan the whole reference queue, in order, for the
tracker holding `resource` (Python compares with `is`; factory products are
distinct objects, so identity is id equality). -/
def _get_tracker (p : CuttlePool) (resource : Nat) : Except Err _ResourceTracker :=
  match p.reference_queue.find? (fun s =>
      match s with
      | some rt => rt.resource == resource
      | none => false) with
  | some (some rt) => .ok rt
  | _ => .error .UnknownResourceError

/-- Method `_make_resource`: find the first empty slot of the unavailable
region, create a tracker around a fresh factory product there, bump `size`,
and wrap the new tracker. -/
def _make_resource (p : CuttlePool) : Except Err (_ResourceTracker × Resource × CuttlePool) :=
  match p.unavailable_range.find? (fun i => slot p.reference_queue i == none) with
  | some i =>
    let rt0 : _ResourceTracker := { resource := p.nextId, wref := none }
    let (rt, w) := rt0.wrap_resource
    .ok (rt, w,
      { p with
        reference_queue := p.reference_queue.set i (some rt)
        size := p.size + 1
        nextId := p.nextId + 1 })
  | none => .error .PoolFullError

/-- Method `_put`: when under capacity, find the tracker in the unavailable
region, swap its slot with the slot at `resource_end`, advance
`resource_end` modulo `maxsize`, increment `available` and notify one
waiter; otherwise raise `PoolFullError`. -/
def _put (p : CuttlePool) (rtracker : _ResourceTracker) : Except Err CuttlePool :=
  if p.available < (p.capacity : Int) then
    match p.unavailable_range.find? (fun i =>
        match slot p.reference_queue i with
        | some rt => rt.resource == rtracker.resource
        | none => false) with
    | none => .error .UnknownResourceError
    | some i =>
      let j := p.resource_end
      let rq := p.reference_queue
      .ok { p with
        reference_queue := (rq.set i (slot rq j)).set j (slot rq i)
        resource_end := (p.resource_end + 1) % p.maxsize
        available := p.available + 1
        notifyCount := p.notifyCount + 1 }
  else .error .PoolFullError

/-- Method `_remove`: clear the first queue slot holding the tracker
(`list.index` + assignment) and decrement `size`.  `list.index` raises
`ValueError` when the tracker is absent, which only happens on corrupted
states. -/
def _remove (p : CuttlePool) (rtracker : _ResourceTracker) : Except Err CuttlePool :=
  match p.reference_queue.findIdx? (fun s =>
      match s with
      | some rt => rt.resource == rtracker.resource
      | none => false) with
  | some i =>
    .ok { p with
      reference_queue := p.reference_queue.set i none
      size := p.size - 1 }
  | none => .error .pythonError

/-- Method `put_resource`: look the tracker up, try `_put`, and on
`PoolFullError` (and only then) fall back to `_remove`.  Any other error
propagates. -/
def put_resource (p : CuttlePool) (resource : Nat) : Except Err CuttlePool :=
  match p._get_tracker resource with
  | .error e => .error e
  | .ok rtracker =>
    match p._put rtracker with
    | .ok p2 => .ok p2
    | .error .PoolFullError => p._remove rtracker
    | .error e => .error e

/-- Loop body of `_harvest_lost_resources`: walk the captured index list; at
each index holding a tracker whose wrapper is gone, return the tracker's
resource through `put_resource` on the current state. -/
def harvestLoop (p : CuttlePool) : List Nat → Except Err CuttlePool
  | [] => .ok p
  | i :: rest =>
    match slot p.reference_queue i with
    | some rt =>
      if rt.available then
        match p.put_resource rt.resource with
        | .ok p2 => harvestLoop p2 rest
        | .error e => .error e
      else harvestLoop p rest
    | none => harvestLoop p rest

/-- Method `_harvest_lost_resources`: iterate over the unavailable indices as
captured at entry (the generator computes its bounds before the first body
runs), returning every lost tracker to the pool. -/
def _harvest_lost_resources (p : CuttlePool) : Except Err CuttlePool :=
  harvestLoop p p.unavailable_range

/-- Liveness check and replacement at the end of `get_resource`: if
`ping` accepts the resource the wrapper is handed out (after the
state-neutral `normalize_connection` call); otherwise, under the lock, the
tracker is removed and a replacement is constructed by `_make_resource`,
whose `PoolFullError` (if any) would propagate to the caller. -/
def pingPhase (ping : Nat → Bool) (rt : _ResourceTracker) (w : Resource)
    (p : CuttlePool) : Except Err (Resource × CuttlePool) :=
  if ping rt.resource then .ok (w, p)
  else
    match p._remove rt with
    | .error e => .error e
    | .ok p2 =>
      match p2._make_resource with
      | .error e => .error e
      | .ok (_, w2, p3) => .ok (w2, p3)

/-- Method `get_resource`: harvest when empty, then a non-blocking `_get`
(catching only `PoolEmptyError`), then `_make_resource` (catching only
`PoolFullError`), then the blocking `_get` (catching only `PoolEmptyError`),
then `PoolEmptyError`; finally the ping / replace / normalize phase. -/
def get_resource (ping : Nat → Bool) (p : CuttlePool) : Except Err (Resource × CuttlePool) :=
  match (if p.empty then p._harvest_lost_resources else .ok p) with
  | .error e => .error e
  | .ok p1 =>
    match p1._get with
    | .ok (rt, w, p2) => pingPhase ping rt w p2
    | .error .PoolEmptyError =>
      match p1._make_resource with
      | .ok (rt, w, p2) => pingPhase ping rt w p2
      | .error .PoolFullError =>
        match p1._get with
        | .ok (rt, w, p2) => pingPhase ping rt w p2
        | .error .PoolEmptyError => .error .PoolEmptyError
        | .error e => .error e
      | .error e => .error e
    | .error e => .error e

end CuttlePool

/-- Constructor `Resource.__init__` (class `Resource`): stores the resource
and the pool references via `object.__setattr__`; no validation of any kind
is performed, so construction always succeeds. -/
def resourceInit (resource : Nat) (_p : CuttlePool) : Except Err Resource :=
  .ok { _resource := some resource, _pool := true }

/-- Method `Resource.close`: when the wrapper still holds a resource, return
it through `put_resource` and clear both references; otherwise do nothing.
When `put_resource` raises, the exception propagates before the references
are cleared. -/
def Resource.close (w : Resource) (p : CuttlePool) : Except Err (Resource × CuttlePool) :=
  match w._resource with
  | some r =>
    match p.put_resource r with
    | .ok p2 => .ok ({ _resource := none, _pool := false }, p2)
    | .error e => .error e
  | none => .ok (w, p)

/-- The default `CuttlePool.ping` hook: warns and returns `True`. -/
def pingTrue : Nat → Bool := fun _ => true

/-! ### Well-formedness of a pool state

The predicate `WF` collects the representation invariants of the reference
queue: the queue has length `maxsize`, the two counters are within bounds,
`size` counts the occupied slots, the `available` slots starting at
`resource_start` are occupied and `resource_end` sits just past them, the
occupied slots carry pairwise distinct resources, and every stored resource
id is below the factory counter. -/

/-- Index of the `k`-th cell of the available region (ring arithmetic). -/
def CuttlePool.ringIdx (p : CuttlePool) (k : Nat) : Nat :=
  (p.resource_start + k) % p.maxsize

/-- Number of occupied slots of a reference queue. -/
def countSome (q : List (Option _ResourceTracker)) : Nat :=
  q.countP (fun s => s.isSome)

/-- Two queue slots do not hold the same resource (vacuously true when either
is empty). -/
def idsDifferB : Option _ResourceTracker → Option _ResourceTracker → Bool
  | some a, some b => a.resource != b.resource
  | _, _ => true

/-- The slot's resource id, if any, is below the bound. -/
def idLtB : Option _ResourceTracker → Nat → Bool
  | some rt, n => decide (rt.resource < n)
  | none, _ => true

/-- Representation invariant of a pool state. -/
def WF (p : CuttlePool) : Prop :=
  0 < p.capacity ∧
  p.reference_queue.length = p.maxsize ∧
  p.resource_start < p.maxsize ∧
  0 ≤ p.available ∧
  p.available ≤ (p.capacity : Int) ∧
  p.available ≤ p.size ∧
  p.size = (countSome p.reference_queue : Int) ∧
  p.size ≤ (p.maxsize : Int) ∧
  p.resource_end = (p.resource_start + p.available.toNat) % p.maxsize ∧
  (∀ k < p.available.toNat, (slot p.reference_queue (p.ringIdx k)).isSome = true) ∧
  (∀ i < p.maxsize, ∀ j < p.maxsize, i ≠ j →
    idsDifferB (slot p.reference_queue i) (slot p.reference_queue j) = true) ∧
  (∀ i < p.maxsize, idLtB (slot p.reference_queue i) p.nextId = true)

instance (p : CuttlePool) : Decidable (WF p) := by
  unfold WF
  infer_instance

theorem WF.cap_pos {p : CuttlePool} (h : WF p) : 0 < p.capacity := h.1

theorem WF.len {p : CuttlePool} (h : WF p) : p.reference_queue.length = p.maxsize := h.2.1

theorem WF.start_lt {p : CuttlePool} (h : WF p) : p.resource_start < p.maxsize := h.2.2.1

theorem WF.avail_nonneg {p : CuttlePool} (h : WF p) : 0 ≤ p.available := h.2.2.2.1

theorem WF.avail_le_cap {p : CuttlePool} (h : WF p) : p.available ≤ (p.capacity : Int) :=
  h.2.2.2.2.1

theorem WF.avail_le_size {p : CuttlePool} (h : WF p) : p.available ≤ p.size := h.2.2.2.2.2.1

theorem WF.size_eq {p : CuttlePool} (h : WF p) : p.size = (countSome p.reference_queue : Int) :=
  h.2.2.2.2.2.2.1

theorem WF.size_le {p : CuttlePool} (h : WF p) : p.size ≤ (p.maxsize : Int) :=
  h.2.2.2.2.2.2.2.1

theorem WF.end_eq {p : CuttlePool} (h : WF p) :
    p.resource_end = (p.resource_start + p.available.toNat) % p.maxsize :=
  h.2.2.2.2.2.2.2.2.1

theorem WF.region {p : CuttlePool} (h : WF p) :
    ∀ k < p.available.toNat, (slot p.reference_queue (p.ringIdx k)).isSome = true :=
  h.2.2.2.2.2.2.2.2.2.1

theorem WF.uniq {p : CuttlePool} (h : WF p) :
    ∀ i < p.maxsize, ∀ j < p.maxsize, i ≠ j →
      idsDifferB (slot p.reference_queue i) (slot p.reference_queue j) = true :=
  h.2.2.2.2.2.2.2.2.2.2.1

theorem WF.fresh {p : CuttlePool} (h : WF p) :
    ∀ i < p.maxsize, idLtB (slot p.reference_queue i) p.nextId = true :=
  h.2.2.2.2.2.2.2.2.2.2.2

theorem WF.maxsize_pos {p : CuttlePool} (h : WF p) : 0 < p.maxsize :=
  Nat.lt_of_lt_of_le h.cap_pos (Nat.le_add_right _ _)

theorem WF.avail_toNat_le {p : CuttlePool} (h : WF p) : p.available.toNat ≤ p.maxsize := by
  have h1 := h.avail_le_size
  have h2 := h.size_le
  omega

theorem WF.avail_toNat_le_cap {p : CuttlePool} (h : WF p) : p.available.toNat ≤ p.capacity := by
  have h1 := h.avail_le_cap
  have h2 := h.avail_nonneg
  omega

/-! ### Slot and counting lemmas -/

theorem getElem?_eq_slot {q : List (Option _ResourceTracker)} {i : Nat} (h : i < q.length) :
    q[i]? = some (slot q i) := by
  simp [slot, List.getD_eq_getElem?_getD, List.getElem?_eq_getElem h]

theorem slot_set_self {q : List (Option _ResourceTracker)} {i : Nat} (h : i < q.length)
    (v : Option _ResourceTracker) : slot (q.set i v) i = v := by
  simp [slot, List.getD_eq_getElem?_getD, List.getElem?_set_self h]

theorem slot_set_ne {q : List (Option _ResourceTracker)} {i j : Nat} (h : i ≠ j)
    (v : Option _ResourceTracker) : slot (q.set i v) j = slot q j := by
  simp [slot, List.getD_eq_getElem?_getD, List.getElem?_set_ne h]

theorem lt_of_slot_isSome {q : List (Option _ResourceTracker)} {i : Nat}
    (h : (slot q i).isSome = true) : i < q.length := by
  by_contra hc
  simp [slot, List.getD_eq_getElem?_getD, List.getElem?_eq_none (Nat.le_of_not_lt hc)] at h

theorem lt_of_slot_eq_some {q : List (Option _ResourceTracker)} {i : Nat} {rt : _ResourceTracker}
    (h : slot q i = some rt) : i < q.length :=
  lt_of_slot_isSome (by simp [h])

theorem mem_of_slot_eq_some {q : List (Option _ResourceTracker)} {i : Nat} {rt : _ResourceTracker}
    (h : slot q i = some rt) : (some rt) ∈ q := by
  have hlt : i < q.length := lt_of_slot_eq_some h
  refine List.mem_iff_getElem.mpr ⟨i, hlt, ?_⟩
  have h1 := getElem?_eq_slot hlt
  have h2 := List.getElem?_eq_getElem hlt
  rw [h1, h] at h2
  exact (Option.some_inj.mp h2.symm)

theorem get_eq_slot {q : List (Option _ResourceTracker)} {i : Nat} (h : i < q.length) :
    q.get ⟨i, h⟩ = slot q i := by
  have h1 := getElem?_eq_slot h
  have h2 := List.getElem?_eq_getElem h
  rw [h1] at h2
  simpa using h2.symm

theorem countSome_set {q : List (Option _ResourceTracker)} {i : Nat} (h : i < q.length)
    (v : Option _ResourceTracker) :
    countSome (q.set i v) =
      countSome q - (if (slot q i).isSome then 1 else 0) + (if v.isSome then 1 else 0) := by
  have h1 := List.countP_set (fun s => s.isSome) q i v h
  have h2 : q[i] = slot q i := by
    have ha := getElem?_eq_slot h
    have hb := List.getElem?_eq_getElem h
    rw [ha] at hb
    exact Option.some_inj.mp hb.symm
  rw [h2] at h1
  simpa [countSome] using h1

theorem countSome_le_length (q : List (Option _ResourceTracker)) : countSome q ≤ q.length :=
  List.countP_le_length _

theorem one_le_countSome_of_slot {q : List (Option _ResourceTracker)} {i : Nat}
    (h : (slot q i).isSome = true) : 1 ≤ countSome q := by
  obtain ⟨rt, hrt⟩ := Option.isSome_iff_exists.mp h
  exact List.countP_pos_iff.mpr ⟨some rt, mem_of_slot_eq_some hrt, by simp⟩

theorem nodup_indices_le_countSome {idxs : List Nat} :
    ∀ q : List (Option _ResourceTracker), idxs.Nodup →
      (∀ i ∈ idxs, (slot q i).isSome = true) → idxs.length ≤ countSome q := by
  induction idxs with
  | nil => intro q _ _; simp
  | cons i rest ih =>
    intro q hnd hall
    have hi : (slot q i).isSome = true := hall i (List.mem_cons_self _ _)
    have hlt := lt_of_slot_isSome hi
    have hone := one_le_countSome_of_slot hi
    have hset := countSome_set hlt (none : Option _ResourceTracker)
    simp [hi] at hset
    have hrest : ∀ j ∈ rest, (slot (q.set i none) j).isSome = true := by
      intro j hj
      have hne : i ≠ j := by
        intro he
        exact (List.nodup_cons.mp hnd).1 (he ▸ hj)
      rw [slot_set_ne hne]
      exact hall j (List.mem_cons_of_mem _ hj)
    have := ih (q.set i none) (List.nodup_cons.mp hnd).2 hrest
    simp only [List.length_cons]
    omega

theorem countSome_lt_length_of_slot_none {q : List (Option _ResourceTracker)} {i : Nat}
    (hlt : i < q.length) (h : slot q i = none) : countSome q < q.length := by
  have h1 := countSome_set hlt (some { resource := 0, wref := none })
  have h2 := countSome_le_length (q.set i (some { resource := 0, wref := none }))
  simp [h] at h1
  simp at h2
  omega

/-! ### Modular arithmetic on the ring -/

theorem mod_two_cases {x m : Nat} (h : x < 2 * m) : x % m = if x < m then x else x - m := by
  split
  · exact Nat.mod_eq_of_lt (by assumption)
  · have h1 : m ≤ x := Nat.le_of_not_lt (by assumption)
    rw [Nat.mod_eq_sub_mod h1, Nat.mod_eq_of_lt (by omega)]

theorem add_mod_inj {m s x y : Nat} (hx : x < m) (hy : y < m)
    (h : (s + x) % m = (s + y) % m) : x = y := by
  have h2 : x ≡ y [MOD m] := Nat.ModEq.add_left_cancel' s h
  have h3 : x % m = y % m := h2
  rwa [Nat.mod_eq_of_lt hx, Nat.mod_eq_of_lt hy] at h3

theorem ringIdx_lt {p : CuttlePool} (hm : 0 < p.maxsize) (k : Nat) :
    p.ringIdx k < p.maxsize :=
  Nat.mod_lt _ hm

theorem ringIdx_inj {p : CuttlePool} {k l : Nat} (hk : k < p.maxsize) (hl : l < p.maxsize)
    (h : p.ringIdx k = p.ringIdx l) : k = l :=
  add_mod_inj hk hl h

theorem end_add_mod {p : CuttlePool} (h : WF p) (t : Nat) :
    (p.resource_end + t) % p.maxsize = p.ringIdx (p.available.toNat + t) := by
  rw [h.end_eq, CuttlePool.ringIdx, Nat.mod_add_mod, Nat.add_assoc]

/-! ### The unavailable region in canonical form -/

theorem empty_iff_toNat {p : CuttlePool} (h0 : 0 ≤ p.available) :
    p.empty = true ↔ p.available.toNat = 0 := by
  simp only [CuttlePool.empty, beq_iff_eq]
  omega

theorem unavailable_range_eq {p : CuttlePool} (h : WF p) :
    p.unavailable_range =
      (List.range (p.maxsize - p.available.toNat)).map
        (fun t => p.ringIdx (p.available.toNat + t)) := by
  have hm := h.maxsize_pos
  have hs := h.start_lt
  have ha := h.avail_toNat_le
  have he : p.resource_end =
      if p.resource_start + p.available.toNat < p.maxsize then
        p.resource_start + p.available.toNat
      else p.resource_start + p.available.toNat - p.maxsize := by
    rw [h.end_eq]
    exact mod_two_cases (by omega)
  have hempty := empty_iff_toNat h.avail_nonneg
  unfold CuttlePool.unavailable_range
  simp only []
  have hcount :
      (if p.resource_start < p.resource_end ∨ p.empty = true then
          p.resource_start + p.maxsize
        else p.resource_start) - p.resource_end =
        p.maxsize - p.available.toNat := by
    by_cases hemp : p.empty = true
    · have h0 : p.available.toNat = 0 := hempty.mp hemp
      rw [if_pos (Or.inr hemp), he]
      split_ifs <;> omega
    · have h0 : p.available.toNat ≠ 0 := fun hc => hemp (hempty.mpr hc)
      by_cases hw : p.resource_start + p.available.toNat < p.maxsize
      · rw [if_pos (Or.inl (by rw [he, if_pos hw]; omega)), he, if_pos hw]
        omega
      · have hnotlt : ¬ (p.resource_start < p.resource_end ∨ p.empty = true) := by
          push_neg
          refine ⟨?_, hemp⟩
          rw [he, if_neg hw]
          omega
        rw [if_neg hnotlt, he, if_neg hw]
        omega
  rw [hcount]
  apply List.map_congr_left
  intro t _
  exact end_add_mod h t

theorem mem_unavailable_range {p : CuttlePool} (h : WF p) {i : Nat} :
    i ∈ p.unavailable_range ↔
      ∃ t, t < p.maxsize - p.available.toNat ∧ i = p.ringIdx (p.available.toNat + t) := by
  rw [unavailable_range_eq h]
  simp only [List.mem_map, List.mem_range]
  constructor
  · rintro ⟨t, ht, rfl⟩
    exact ⟨t, ht, rfl⟩
  · rintro ⟨t, ht, rfl⟩
    exact ⟨t, ht, rfl⟩

theorem unavailable_range_nodup {p : CuttlePool} (h : WF p) : p.unavailable_range.Nodup := by
  rw [unavailable_range_eq h]
  have ha := h.avail_toNat_le
  refine List.Nodup.map_on ?_ (List.nodup_range _)
  intro x hx y hy hxy
  have hx' := List.mem_range.mp hx
  have hy' := List.mem_range.mp hy
  have := ringIdx_inj (p := p) (by omega) (by omega) hxy
  omega

theorem unavailable_lt_maxsize {p : CuttlePool} (h : WF p) {i : Nat}
    (hi : i ∈ p.unavailable_range) : i < p.maxsize := by
  obtain ⟨t, _, rfl⟩ := (mem_unavailable_range h).mp hi
  exact ringIdx_lt h.maxsize_pos _

theorem unavailable_ne_region {p : CuttlePool} (h : WF p) {i : Nat}
    (hi : i ∈ p.unavailable_range) {k : Nat} (hk : k < p.available.toNat) :
    i ≠ p.ringIdx k := by
  obtain ⟨t, ht, rfl⟩ := (mem_unavailable_range h).mp hi
  intro hc
  have ha := h.avail_toNat_le
  have := ringIdx_inj (p := p) (by omega) (by omega) hc
  omega

theorem end_mem_unavailable {p : CuttlePool} (h : WF p)
    (hlt : p.available.toNat < p.maxsize) : p.resource_end ∈ p.unavailable_range := by
  rw [mem_unavailable_range h]
  exact ⟨0, by omega, by rw [h.end_eq]; simp [CuttlePool.ringIdx]⟩

theorem region_slot_isSome {p : CuttlePool} (h : WF p) {k : Nat}
    (hk : k < p.available.toNat) : (slot p.reference_queue (p.ringIdx k)).isSome = true :=
  h.region k hk

theorem avail_le_countSome {p : CuttlePool} (h : WF p) :
    p.available.toNat ≤ countSome p.reference_queue := by
  have hnd : ((List.range p.available.toNat).map p.ringIdx).Nodup := by
    refine List.Nodup.map_on ?_ (List.nodup_range _)
    intro x hx y hy hxy
    have hx' := List.mem_range.mp hx
    have hy' := List.mem_range.mp hy
    have ha := h.avail_toNat_le
    exact ringIdx_inj (p := p) (by omega) (by omega) hxy
  have := nodup_indices_le_countSome (q := p.reference_queue) hnd ?_
  · simpa using this
  · intro i hi
    obtain ⟨k, hk, rfl⟩ := List.mem_map.mp hi
    exact h.region k (List.mem_range.mp hk)

/-! ### Uniqueness, lookup and swap lemmas -/

theorem exists_slot_of_mem {q : List (Option _ResourceTracker)} {x : Option _ResourceTracker}
    (h : x ∈ q) : ∃ j, j < q.length ∧ slot q j = x := by
  obtain ⟨j, hj, hjeq⟩ := List.mem_iff_getElem.mp h
  refine ⟨j, hj, ?_⟩
  rw [← get_eq_slot hj]
  simpa using hjeq

theorem uniq_slot {p : CuttlePool} (h : WF p) {i j : Nat} {rt rt' : _ResourceTracker}
    (hi : slot p.reference_queue i = some rt) (hj : slot p.reference_queue j = some rt')
    (hid : rt.resource = rt'.resource) : i = j := by
  by_contra hne
  have hilt : i < p.maxsize := by
    have := lt_of_slot_eq_some hi
    rwa [h.len] at this
  have hjlt : j < p.maxsize := by
    have := lt_of_slot_eq_some hj
    rwa [h.len] at this
  have := h.uniq i hilt j hjlt hne
  rw [hi, hj] at this
  simp [idsDifferB, hid] at this

theorem get_tracker_of_slot {p : CuttlePool} {i : Nat} {rt : _ResourceTracker} (h : WF p)
    (hi : slot p.reference_queue i = some rt) :
    p._get_tracker rt.resource = .ok rt := by
  unfold CuttlePool._get_tracker
  have hfind : p.reference_queue.find? (fun s =>
      match s with
      | some rt' => rt'.resource == rt.resource
      | none => false) = some (some rt) := by
    cases hc : p.reference_queue.find? (fun s =>
        match s with
        | some rt' => rt'.resource == rt.resource
        | none => false) with
    | none =>
      exfalso
      have := List.find?_eq_none.mp hc (some rt) (mem_of_slot_eq_some hi)
      simp at this
    | some x =>
      have hpx := List.find?_some hc
      have hmem := List.mem_of_find?_eq_some hc
      cases x with
      | none => simp at hpx
      | some rt' =>
        obtain ⟨j, hjlt, hjslot⟩ := exists_slot_of_mem hmem
        have hid : rt'.resource = rt.resource := by simpa using hpx
        have := uniq_slot h hjslot hi hid
        subst this
        rw [hi] at hjslot
        rw [hjslot]
  rw [hfind]

theorem put_find_eq {p : CuttlePool} {i : Nat} {rt : _ResourceTracker} (h : WF p)
    (hi : slot p.reference_queue i = some rt) (hiu : i ∈ p.unavailable_range) :
    p.unavailable_range.find? (fun u =>
      match slot p.reference_queue u with
      | some t => t.resource == rt.resource
      | none => false) = some i := by
  cases hc : p.unavailable_range.find? (fun u =>
      match slot p.reference_queue u with
      | some t => t.resource == rt.resource
      | none => false) with
  | none =>
    exfalso
    have := List.find?_eq_none.mp hc i hiu
    simp [hi] at this
  | some u =>
    have hpu := List.find?_some hc
    cases hu : slot p.reference_queue u with
    | none => rw [hu] at hpu; simp at hpu
    | some t =>
      rw [hu] at hpu
      have hid : t.resource = rt.resource := by simpa using hpu
      have := uniq_slot h hu hi hid
      rw [this]

theorem findIdx?_go_eq {α : Type} (pred : α → Bool) :
    ∀ (q : List α) (i k : Nat) (hlt : i < q.length),
      pred (q.get ⟨i, hlt⟩) = true →
      (∀ j, (hj : j < q.length) → pred (q.get ⟨j, hj⟩) = true → j = i) →
      q.findIdx? pred k = some (k + i) := by
  intro q
  induction q with
  | nil => intro i k hlt; simp at hlt
  | cons x xs ih =>
    intro i k hlt hp hu
    rw [List.findIdx?_cons]
    by_cases hx : pred x = true
    · have h0 : 0 = i := hu 0 (by simp) (by simpa using hx)
      rw [if_pos hx, ← h0]
      simp
    · rw [if_neg hx]
      cases i with
      | zero => exact absurd (by simpa using hp) hx
      | succ i' =>
        have hlt' : i' < xs.length := by simpa [Nat.succ_lt_succ_iff] using hlt
        have hp' : pred (xs.get ⟨i', hlt'⟩) = true := by simpa using hp
        have hu' : ∀ j, (hj : j < xs.length) → pred (xs.get ⟨j, hj⟩) = true → j = i' := by
          intro j hj hpj
          have := hu (j + 1) (by simpa [Nat.succ_lt_succ_iff] using hj) (by simpa using hpj)
          omega
        rw [ih i' (k + 1) hlt' hp' hu']
        congr 1
        omega

theorem remove_findIdx {p : CuttlePool} {i : Nat} {rt : _ResourceTracker} (h : WF p)
    (hi : slot p.reference_queue i = some rt) :
    p.reference_queue.findIdx? (fun s =>
      match s with
      | some t => t.resource == rt.resource
      | none => false) = some i := by
  have hlt := lt_of_slot_eq_some hi
  have := findIdx?_go_eq (fun s =>
      match s with
      | some t => t.resource == rt.resource
      | none => false) p.reference_queue i 0 hlt ?_ ?_
  · simpa using this
  · rw [get_eq_slot hlt, hi]
    simp
  · intro j hj hpj
    rw [get_eq_slot hj] at hpj
    cases hjs : slot p.reference_queue j with
    | none => rw [hjs] at hpj; simp at hpj
    | some t =>
      rw [hjs] at hpj
      exact uniq_slot h hjs hi (by simpa using hpj)

theorem slot_swap {q : List (Option _ResourceTracker)} {i j : Nat} (hi : i < q.length)
    (hj : j < q.length) (x : Nat) :
    slot ((q.set i (slot q j)).set j (slot q i)) x =
      slot q (if x = j then i else if x = i then j else x) := by
  by_cases hxj : x = j
  · subst hxj
    rw [if_pos rfl, slot_set_self (by simpa using hj)]
  · rw [if_neg hxj, slot_set_ne (fun hc => hxj hc.symm)]
    by_cases hxi : x = i
    · subst hxi
      rw [if_pos rfl, slot_set_self hi]
    · rw [if_neg hxi, slot_set_ne (fun hc => hxi hc.symm)]

theorem countSome_swap {q : List (Option _ResourceTracker)} {i j : Nat} (hi : i < q.length)
    (hj : j < q.length) :
    countSome ((q.set i (slot q j)).set j (slot q i)) = countSome q := by
  by_cases hij : i = j
  · subst hij
    rw [countSome_set (by simpa using hi), slot_set_self hi, countSome_set hi]
    cases hs : (slot q i).isSome <;> simp [hs]
    have := one_le_countSome_of_slot hs
    omega
  · have h1 := countSome_set hi (slot q j)
    have h2 := countSome_set (q := q.set i (slot q j)) (by simpa using hj) (slot q i)
    rw [slot_set_ne hij] at h2
    rw [h2, h1]
    have hone_i : (slot q i).isSome = true → 1 ≤ countSome q := one_le_countSome_of_slot
    have hone_j : (slot q j).isSome = true → 1 ≤ countSome q := one_le_countSome_of_slot
    cases hsi : (slot q i).isSome <;> cases hsj : (slot q j).isSome <;>
      simp [hsi, hsj] at hone_i hone_j ⊢ <;> omega

/-! ### Preservation helpers for the uniqueness and freshness invariants -/

theorem idsDifferB_none_left (c : Option _ResourceTracker) : idsDifferB none c = true := by
  cases c <;> simp [idsDifferB]

theorem idsDifferB_none_right (c : Option _ResourceTracker) : idsDifferB c none = true := by
  cases c <;> simp [idsDifferB]

theorem idsDifferB_left {a b : _ResourceTracker} (hab : a.resource = b.resource)
    (c : Option _ResourceTracker) : idsDifferB (some a) c = idsDifferB (some b) c := by
  cases c <;> simp [idsDifferB, hab]

theorem idsDifferB_right {a b : _ResourceTracker} (hab : a.resource = b.resource)
    (c : Option _ResourceTracker) : idsDifferB c (some a) = idsDifferB c (some b) := by
  cases c <;> simp [idsDifferB, hab]

theorem idLtB_mono {s : Option _ResourceTracker} {n n' : Nat} (h : idLtB s n = true)
    (hnn : n ≤ n') : idLtB s n' = true := by
  cases s <;> simp [idLtB] at h ⊢
  omega

theorem uniq_after_set_same {q : List (Option _ResourceTracker)} {m s : Nat}
    {rt : _ResourceTracker}
    (hu : ∀ i < m, ∀ j < m, i ≠ j → idsDifferB (slot q i) (slot q j) = true)
    (hs : slot q s = some rt) (rt2 : _ResourceTracker) (hid : rt2.resource = rt.resource) :
    ∀ i < m, ∀ j < m, i ≠ j →
      idsDifferB (slot (q.set s (some rt2)) i) (slot (q.set s (some rt2)) j) = true := by
  have hslen : s < q.length := lt_of_slot_eq_some hs
  intro i hi j hj hne
  by_cases his : i = s
  · subst his
    rw [slot_set_self hslen, slot_set_ne hne, idsDifferB_left hid, ← hs]
    exact hu i hi j hj hne
  · by_cases hjs : j = s
    · subst hjs
      rw [slot_set_ne (Ne.symm hne), slot_set_self hslen, idsDifferB_right hid, ← hs]
      exact hu i hi j hj hne
    · rw [slot_set_ne (fun hc => his hc.symm), slot_set_ne (fun hc => hjs hc.symm)]
      exact hu i hi j hj hne

theorem uniq_after_set_none {q : List (Option _ResourceTracker)} {m s : Nat}
    (hu : ∀ i < m, ∀ j < m, i ≠ j → idsDifferB (slot q i) (slot q j) = true) :
    ∀ i < m, ∀ j < m, i ≠ j →
      idsDifferB (slot (q.set s none) i) (slot (q.set s none) j) = true := by
  intro i hi j hj hne
  by_cases his : s = i
  · subst his
    by_cases hslen : s < q.length
    · rw [slot_set_self hslen]
      exact idsDifferB_none_left _
    · rw [List.set_eq_of_length_le (Nat.le_of_not_lt hslen)]
      exact hu s hi j hj hne
  · rw [slot_set_ne his]
    by_cases hjs : s = j
    · subst hjs
      by_cases hslen : s < q.length
      · rw [slot_set_self hslen]
        exact idsDifferB_none_right _
      · rw [List.set_eq_of_length_le (Nat.le_of_not_lt hslen)]
        exact hu i hi s hj hne
    · rw [slot_set_ne hjs]
      exact hu i hi j hj hne

theorem fresh_after_set {q : List (Option _ResourceTracker)} {m n s : Nat}
    {v : Option _ResourceTracker} (hslen : s < q.length)
    (hf : ∀ i < m, idLtB (slot q i) n = true) (hv : idLtB v n = true) :
    ∀ i < m, idLtB (slot (q.set s v) i) n = true := by
  intro i hi
  by_cases his : s = i
  · subst his
    rw [slot_set_self hslen]
    exact hv
  · rw [slot_set_ne his]
    exact hf i hi

theorem uniq_after_swap {q : List (Option _ResourceTracker)} {m i j : Nat}
    (hi : i < q.length) (hj : j < q.length) (hlen : q.length = m)
    (hu : ∀ a < m, ∀ b < m, a ≠ b → idsDifferB (slot q a) (slot q b) = true) :
    ∀ a < m, ∀ b < m, a ≠ b →
      idsDifferB (slot ((q.set i (slot q j)).set j (slot q i)) a)
        (slot ((q.set i (slot q j)).set j (slot q i)) b) = true := by
  intro a ha b hb hne
  rw [slot_swap hi hj a, slot_swap hi hj b]
  have him : i < m := hlen ▸ hi
  have hjm : j < m := hlen ▸ hj
  refine hu _ ?_ _ ?_ ?_
  · split_ifs <;> omega
  · split_ifs <;> omega
  · split_ifs <;> omega

theorem fresh_after_swap {q : List (Option _ResourceTracker)} {m n i j : Nat}
    (hi : i < q.length) (hj : j < q.length) (hlen : q.length = m)
    (hf : ∀ a < m, idLtB (slot q a) n = true) :
    ∀ a < m, idLtB (slot ((q.set i (slot q j)).set j (slot q i)) a) n = true := by
  intro a ha
  rw [slot_swap hi hj a]
  have him : i < m := hlen ▸ hi
  have hjm : j < m := hlen ▸ hj
  refine hf _ ?_
  split_ifs <;> omega

/-! ### Specification of `_get` -/

theorem avail_toNat_pos_of_not_empty {p : CuttlePool} (h : WF p) (hne : p.empty = false) :
    0 < p.available.toNat := by
  have h0 := h.avail_nonneg
  simp [CuttlePool.empty] at hne
  omega

theorem ringIdx_zero {p : CuttlePool} (h : WF p) : p.ringIdx 0 = p.resource_start := by
  simp [CuttlePool.ringIdx, Nat.mod_eq_of_lt h.start_lt]

theorem slot_start_some {p : CuttlePool} (h : WF p) (hne : p.empty = false) :
    ∃ rt, slot p.reference_queue p.resource_start = some rt := by
  have hpos := avail_toNat_pos_of_not_empty h hne
  have hslot := h.region 0 hpos
  rw [ringIdx_zero h] at hslot
  exact Option.isSome_iff_exists.mp hslot

theorem get_spec {p : CuttlePool} {rt : _ResourceTracker} (hne : p.empty = false)
    (hrt : slot p.reference_queue p.resource_start = some rt) :
    p._get = .ok ({ rt with wref := some true },
      { _resource := some rt.resource, _pool := true },
      { p with
        reference_queue := p.reference_queue.set p.resource_start
          (some { rt with wref := some true })
        resource_start := (p.resource_start + 1) % p.maxsize
        available := p.available - 1 }) := by
  unfold CuttlePool._get
  simp [hne, hrt, _ResourceTracker.wrap_resource]

theorem get_WF {p : CuttlePool} {rt : _ResourceTracker} (h : WF p) (hne : p.empty = false)
    (hrt : slot p.reference_queue p.resource_start = some rt) :
    WF { p with
      reference_queue := p.reference_queue.set p.resource_start
        (some { rt with wref := some true })
      resource_start := (p.resource_start + 1) % p.maxsize
      available := p.available - 1 } := by
  have hm := h.maxsize_pos
  have hs := h.start_lt
  have hpos := avail_toNat_pos_of_not_empty h hne
  have hlen := h.len
  have hslen : p.resource_start < p.reference_queue.length := lt_of_slot_eq_some hrt
  have ha := h.avail_toNat_le
  have hnonneg := h.avail_nonneg
  have hisSome : (slot p.reference_queue p.resource_start).isSome = true := by simp [hrt]
  refine ⟨h.cap_pos, ?_, ?_, ?_, ?_, ?_, ?_, ?_, ?_, ?_, ?_, ?_⟩
  · simpa [CuttlePool.maxsize] using hlen
  · exact Nat.mod_lt _ hm
  · simp only []
    omega
  · have := h.avail_le_cap
    simp only []
    omega
  · have := h.avail_le_size
    simp only []
    omega
  · have hset := countSome_set hslen (some { rt with wref := some true })
    have hone := one_le_countSome_of_slot hisSome
    have := h.size_eq
    simp only [hisSome, if_true, Option.isSome_some] at hset
    simp only [hset]
    rw [this]
    congr 1
    omega
  · have := h.size_le
    simpa [CuttlePool.maxsize] using this
  · show p.resource_end = _
    rw [h.end_eq]
    simp only [CuttlePool.maxsize]
    rw [Nat.mod_add_mod]
    congr 1
    omega
  · intro k hk
    show (slot _ (((p.resource_start + 1) % p.maxsize + k) % (p.capacity + p.overflow))).isSome = true
    have hk1 : k + 1 < p.available.toNat := by
      simp only [] at hk
      omega
    have hidx : ((p.resource_start + 1) % p.maxsize + k) % (p.capacity + p.overflow) =
        p.ringIdx (k + 1) := by
      show _ = (p.resource_start + (k + 1)) % p.maxsize
      simp only [CuttlePool.maxsize]
      rw [Nat.mod_add_mod]
      congr 1
      omega
    rw [hidx]
    have hne2 : p.resource_start ≠ p.ringIdx (k + 1) := by
      rw [← ringIdx_zero h]
      intro hc
      have := ringIdx_inj (p := p) (by omega) (by omega) hc
      omega
    rw [slot_set_ne hne2]
    exact h.region (k + 1) hk1
  · show ∀ i < p.capacity + p.overflow, ∀ j < p.capacity + p.overflow, i ≠ j → _
    have := uniq_after_set_same h.uniq hrt { rt with wref := some true } rfl
    simpa [CuttlePool.maxsize] using this
  · show ∀ i < p.capacity + p.overflow, _
    have hfr : idLtB (some { rt with wref := some true }) p.nextId = true := by
      have := h.fresh p.resource_start (hlen ▸ hslen)
      rw [hrt] at this
      simpa [idLtB] using this
    have := fresh_after_set hslen h.fresh hfr
    simpa [CuttlePool.maxsize] using this

/-! ### Specification of `_make_resource` -/

theorem uniq_after_set_fresh {q : List (Option _ResourceTracker)} {m n s : Nat}
    (hu : ∀ i < m, ∀ j < m, i ≠ j → idsDifferB (slot q i) (slot q j) = true)
    (hf : ∀ i < m, idLtB (slot q i) n = true)
    (hslen : s < q.length) (rtNew : _ResourceTracker) (hid : rtNew.resource = n) :
    ∀ i < m, ∀ j < m, i ≠ j →
      idsDifferB (slot (q.set s (some rtNew)) i) (slot (q.set s (some rtNew)) j) = true := by
  intro i hi j hj hne
  by_cases his : i = s
  · subst his
    rw [slot_set_self hslen, slot_set_ne hne]
    have := hf j hj
    cases hjs : slot q j with
    | none => simp [idsDifferB]
    | some t =>
      rw [hjs] at this
      simp [idLtB] at this
      simp [idsDifferB, hid]
      omega
  · by_cases hjs : j = s
    · subst hjs
      rw [slot_set_ne (Ne.symm hne), slot_set_self hslen]
      have := hf i hi
      cases his2 : slot q i with
      | none => simp [idsDifferB]
      | some t =>
        rw [his2] at this
        simp [idLtB] at this
        simp [idsDifferB, hid]
        omega
    · rw [slot_set_ne (fun hc => his hc.symm), slot_set_ne (fun hc => hjs hc.symm)]
      exact hu i hi j hj hne

theorem make_spec {p : CuttlePool} {i : Nat}
    (hfound : p.unavailable_range.find?
      (fun u => slot p.reference_queue u == none) = some i) :
    p._make_resource = .ok ({ resource := p.nextId, wref := some true },
      { _resource := some p.nextId, _pool := true },
      { p with
        reference_queue := p.reference_queue.set i
          (some { resource := p.nextId, wref := some true })
        size := p.size + 1
        nextId := p.nextId + 1 }) := by
  unfold CuttlePool._make_resource
  rw [hfound]
  simp [_ResourceTracker.wrap_resource]

theorem make_found_mem {p : CuttlePool} {i : Nat}
    (hfound : p.unavailable_range.find?
      (fun u => slot p.reference_queue u == none) = some i) :
    i ∈ p.unavailable_range ∧ slot p.reference_queue i = none := by
  refine ⟨List.mem_of_find?_eq_some hfound, ?_⟩
  have := List.find?_some hfound
  simpa using this

theorem make_finds_of_none_slot {p : CuttlePool} {u : Nat} (hu : u ∈ p.unavailable_range)
    (hslot : slot p.reference_queue u = none) :
    ∃ i, p.unavailable_range.find? (fun x => slot p.reference_queue x == none) = some i := by
  cases hc : p.unavailable_range.find? (fun x => slot p.reference_queue x == none) with
  | none =>
    exfalso
    have := List.find?_eq_none.mp hc u hu
    simp [hslot] at this
  | some i => exact ⟨i, rfl⟩

theorem make_fails_iff {p : CuttlePool} :
    p._make_resource = .error .PoolFullError ↔
      p.unavailable_range.find? (fun u => slot p.reference_queue u == none) = none := by
  unfold CuttlePool._make_resource
  cases hc : p.unavailable_range.find? (fun u => slot p.reference_queue u == none) with
  | none => simp
  | some i => simp

theorem make_WF {p : CuttlePool} {i : Nat} (h : WF p) (hiu : i ∈ p.unavailable_range)
    (hslot : slot p.reference_queue i = none) :
    WF { p with
      reference_queue := p.reference_queue.set i
        (some { resource := p.nextId, wref := some true })
      size := p.size + 1
      nextId := p.nextId + 1 } := by
  have hm := h.maxsize_pos
  have hlen := h.len
  have him : i < p.maxsize := unavailable_lt_maxsize h hiu
  have hilen : i < p.reference_queue.length := hlen ▸ him
  have hcount := countSome_set hilen
    (some { resource := p.nextId, wref := some true })
  simp only [hslot, Option.isSome_none, if_false, Option.isSome_some, if_true] at hcount
  have hcountlt := countSome_lt_length_of_slot_none hilen hslot
  refine ⟨h.cap_pos, ?_, h.start_lt, h.avail_nonneg, h.avail_le_cap, ?_, ?_, ?_, h.end_eq, ?_,
    ?_, ?_⟩
  · simpa [CuttlePool.maxsize] using hlen
  · have := h.avail_le_size
    simp only []
    omega
  · show p.size + 1 = _
    rw [h.size_eq]
    simp only [hcount]
    push_cast
    omega
  · show p.size + 1 ≤ _
    have := h.size_eq
    simp only [CuttlePool.maxsize] at *
    omega
  · intro k hk
    show (slot _ (p.ringIdx k)).isSome = true
    rw [slot_set_ne (unavailable_ne_region h hiu hk)]
    exact h.region k hk
  · show ∀ a < p.capacity + p.overflow, ∀ b < p.capacity + p.overflow, a ≠ b → _
    have := uniq_after_set_fresh h.uniq h.fresh hilen
      { resource := p.nextId, wref := some true } rfl
    simpa [CuttlePool.maxsize] using this
  · show ∀ a < p.capacity + p.overflow, _
    have hfr : ∀ a, a < p.maxsize → idLtB (slot p.reference_queue a) (p.nextId + 1) = true :=
      fun a ha => idLtB_mono (h.fresh a ha) (Nat.le_succ _)
    have hv : idLtB (some { resource := p.nextId, wref := some true }) (p.nextId + 1) = true := by
      simp [idLtB]
    have := fresh_after_set hilen hfr hv
    simpa [CuttlePool.maxsize] using this

/-! ### Specification of `_put` and `_remove` -/

theorem WF.end_lt {p : CuttlePool} (h : WF p) : p.resource_end < p.maxsize := by
  rw [h.end_eq]
  exact Nat.mod_lt _ h.maxsize_pos

theorem end_eq_ringIdx_avail {p : CuttlePool} (h : WF p) :
    p.resource_end = p.ringIdx p.available.toNat :=
  h.end_eq

theorem avail_succ_le_countSome {p : CuttlePool} {i : Nat} {rt : _ResourceTracker} (h : WF p)
    (hi : slot p.reference_queue i = some rt)
    (hnr : ∀ k < p.available.toNat, i ≠ p.ringIdx k) :
    p.available.toNat + 1 ≤ countSome p.reference_queue := by
  have hnd : (i :: (List.range p.available.toNat).map p.ringIdx).Nodup := by
    rw [List.nodup_cons]
    constructor
    · intro hc
      obtain ⟨k, hk, hkeq⟩ := List.mem_map.mp hc
      exact hnr k (List.mem_range.mp hk) hkeq.symm
    · refine List.Nodup.map_on ?_ (List.nodup_range _)
      intro x hx y hy hxy
      have hx' := List.mem_range.mp hx
      have hy' := List.mem_range.mp hy
      have ha := h.avail_toNat_le
      exact ringIdx_inj (p := p) (by omega) (by omega) hxy
  have hall : ∀ u ∈ i :: (List.range p.available.toNat).map p.ringIdx,
      (slot p.reference_queue u).isSome = true := by
    intro u hu
    rcases List.mem_cons.mp hu with rfl | hu
    · simp [hi]
    · obtain ⟨k, hk, rfl⟩ := List.mem_map.mp hu
      exact h.region k (List.mem_range.mp hk)
  have := nodup_indices_le_countSome (q := p.reference_queue) hnd hall
  simpa using this

theorem put_spec {p : CuttlePool} {i : Nat} {rt : _ResourceTracker} (h : WF p)
    (hi : slot p.reference_queue i = some rt) (hiu : i ∈ p.unavailable_range)
    (hcap : p.available < (p.capacity : Int)) :
    p._put rt = .ok { p with
      reference_queue := (p.reference_queue.set i
          (slot p.reference_queue p.resource_end)).set p.resource_end
          (slot p.reference_queue i)
      resource_end := (p.resource_end + 1) % p.maxsize
      available := p.available + 1
      notifyCount := p.notifyCount + 1 } := by
  unfold CuttlePool._put
  rw [if_pos hcap, put_find_eq h hi hiu]

theorem put_full {p : CuttlePool} {rt : _ResourceTracker}
    (hcap : ¬ p.available < (p.capacity : Int)) :
    p._put rt = .error .PoolFullError := by
  unfold CuttlePool._put
  rw [if_neg hcap]

theorem put_unknown {p : CuttlePool} {rt : _ResourceTracker}
    (hcap : p.available < (p.capacity : Int))
    (hnone : ∀ u ∈ p.unavailable_range, ∀ t, slot p.reference_queue u = some t →
      t.resource ≠ rt.resource) :
    p._put rt = .error .UnknownResourceError := by
  unfold CuttlePool._put
  rw [if_pos hcap]
  have hfind : p.unavailable_range.find? (fun u =>
      match slot p.reference_queue u with
      | some t => t.resource == rt.resource
      | none => false) = none := by
    rw [List.find?_eq_none]
    intro u hu
    cases hc : slot p.reference_queue u with
    | none => simp
    | some t => simp [hnone u hu t hc]
  rw [hfind]

theorem put_WF {p : CuttlePool} {i : Nat} {rt : _ResourceTracker} (h : WF p)
    (hi : slot p.reference_queue i = some rt) (hiu : i ∈ p.unavailable_range)
    (hcap : p.available < (p.capacity : Int)) :
    WF { p with
      reference_queue := (p.reference_queue.set i
          (slot p.reference_queue p.resource_end)).set p.resource_end
          (slot p.reference_queue i)
      resource_end := (p.resource_end + 1) % p.maxsize
      available := p.available + 1
      notifyCount := p.notifyCount + 1 } := by
  have hm := h.maxsize_pos
  have hlen := h.len
  have hel := h.end_lt
  have hilen : i < p.reference_queue.length := lt_of_slot_eq_some hi
  have helen : p.resource_end < p.reference_queue.length := by omega
  have ha := h.avail_toNat_le
  have hcount := avail_succ_le_countSome h hi (fun k hk => unavailable_ne_region h hiu hk)
  have hatl : p.available.toNat < p.capacity := by
    have := h.avail_nonneg
    omega
  have hcm : p.capacity ≤ p.maxsize := Nat.le_add_right _ _
  have hswap := countSome_swap hilen helen
  refine ⟨h.cap_pos, ?_, h.start_lt, ?_, ?_, ?_, ?_, ?_, ?_, ?_, ?_, ?_⟩
  · simpa [CuttlePool.maxsize] using hlen
  · have := h.avail_nonneg
    simp only []
    omega
  · simp only []
    omega
  · have h1 := h.size_eq
    simp only []
    omega
  · show p.size = _
    rw [h.size_eq, hswap]
  · have := h.size_le
    simpa [CuttlePool.maxsize] using this
  · show (p.resource_end + 1) % p.maxsize = _
    rw [h.end_eq]
    simp only [CuttlePool.maxsize]
    rw [Nat.mod_add_mod]
    congr 1
    have := h.avail_nonneg
    omega
  · intro k hk
    show (slot _ (p.ringIdx k)).isSome = true
    have hk' : k < p.available.toNat + 1 := by
      have h0 := h.avail_nonneg
      have hk2 : k < (p.available + 1).toNat := hk
      omega
    rw [slot_swap hilen helen]
    by_cases hka : k = p.available.toNat
    · subst hka
      rw [if_pos (end_eq_ringIdx_avail h).symm]
      simp [hi]
    · have hk2 : k < p.available.toNat := by omega
      have hne1 : p.ringIdx k ≠ p.resource_end := by
        rw [end_eq_ringIdx_avail h]
        intro hc
        have := ringIdx_inj (p := p) (k := k) (l := p.available.toNat) (by omega)
          (by omega) hc
        omega
      have hne2 : p.ringIdx k ≠ i := fun hc => unavailable_ne_region h hiu hk2 hc.symm
      rw [if_neg hne1, if_neg hne2]
      exact h.region k hk2
  · show ∀ a < p.capacity + p.overflow, ∀ b < p.capacity + p.overflow, a ≠ b → _
    have := uniq_after_swap hilen helen hlen h.uniq
    simpa [CuttlePool.maxsize] using this
  · show ∀ a < p.capacity + p.overflow, _
    have := fresh_after_swap hilen helen hlen h.fresh
    simpa [CuttlePool.maxsize] using this

theorem remove_spec {p : CuttlePool} {i : Nat} {rt : _ResourceTracker} (h : WF p)
    (hi : slot p.reference_queue i = some rt) :
    p._remove rt = .ok { p with
      reference_queue := p.reference_queue.set i none
      size := p.size - 1 } := by
  unfold CuttlePool._remove
  rw [remove_findIdx h hi]

theorem remove_WF {p : CuttlePool} {i : Nat} {rt : _ResourceTracker} (h : WF p)
    (hi : slot p.reference_queue i = some rt)
    (hnr : ∀ k < p.available.toNat, i ≠ p.ringIdx k) :
    WF { p with
      reference_queue := p.reference_queue.set i none
      size := p.size - 1 } := by
  have hlen := h.len
  have hilen : i < p.reference_queue.length := lt_of_slot_eq_some hi
  have hisSome : (slot p.reference_queue i).isSome = true := by simp [hi]
  have hcount := countSome_set hilen (none : Option _ResourceTracker)
  simp only [hisSome, if_true, Option.isSome_none, if_false] at hcount
  have hone := one_le_countSome_of_slot hisSome
  have hsucc := avail_succ_le_countSome h hi hnr
  refine ⟨h.cap_pos, ?_, h.start_lt, h.avail_nonneg, h.avail_le_cap, ?_, ?_, ?_, h.end_eq, ?_,
    ?_, ?_⟩
  · simpa [CuttlePool.maxsize] using hlen
  · have h1 := h.size_eq
    have h2 := h.avail_nonneg
    simp only []
    omega
  · show p.size - 1 = _
    rw [h.size_eq]
    simp only [hcount]
    push_cast
    omega
  · have := h.size_le
    simp only [CuttlePool.maxsize] at *
    omega
  · intro k hk
    show (slot _ (p.ringIdx k)).isSome = true
    rw [slot_set_ne (hnr k hk)]
    exact h.region k hk
  · show ∀ a < p.capacity + p.overflow, ∀ b < p.capacity + p.overflow, a ≠ b → _
    have := uniq_after_set_none (s := i) h.uniq
    simpa [CuttlePool.maxsize] using this
  · show ∀ a < p.capacity + p.overflow, _
    have := fresh_after_set hilen h.fresh (show idLtB none p.nextId = true by simp [idLtB])
    simpa [CuttlePool.maxsize] using this

/-! ### Specification of `put_resource` and the harvest loop -/

theorem put_resource_swap {p : CuttlePool} {i : Nat} {rt : _ResourceTracker} (h : WF p)
    (hi : slot p.reference_queue i = some rt) (hiu : i ∈ p.unavailable_range)
    (hcap : p.available < (p.capacity : Int)) :
    p.put_resource rt.resource = .ok { p with
      reference_queue := (p.reference_queue.set i
          (slot p.reference_queue p.resource_end)).set p.resource_end
          (slot p.reference_queue i)
      resource_end := (p.resource_end + 1) % p.maxsize
      available := p.available + 1
      notifyCount := p.notifyCount + 1 } := by
  have h1 := get_tracker_of_slot h hi
  have h2 := put_spec h hi hiu hcap
  simp only [CuttlePool.put_resource, h1, h2]

theorem put_resource_overflow {p : CuttlePool} {i : Nat} {rt : _ResourceTracker} (h : WF p)
    (hi : slot p.reference_queue i = some rt)
    (hcap : ¬ p.available < (p.capacity : Int)) :
    p.put_resource rt.resource = .ok { p with
      reference_queue := p.reference_queue.set i none
      size := p.size - 1 } := by
  have h1 := get_tracker_of_slot h hi
  have h2 : p._put rt = .error .PoolFullError := put_full hcap
  have h3 := remove_spec h hi
  simp only [CuttlePool.put_resource, h1, h2, h3]

theorem avail_lt_maxsize_of_unavailable {p : CuttlePool} (h : WF p) {i : Nat}
    (hiu : i ∈ p.unavailable_range) : p.available.toNat < p.maxsize := by
  obtain ⟨t, ht, _⟩ := (mem_unavailable_range h).mp hiu
  omega

theorem unavailable_range_tail {p : CuttlePool} {i : Nat} {rt : _ResourceTracker} (h : WF p)
    (hi : slot p.reference_queue i = some rt) (hiu : i ∈ p.unavailable_range)
    (hcap : p.available < (p.capacity : Int)) :
    CuttlePool.unavailable_range { p with
      reference_queue := (p.reference_queue.set i
          (slot p.reference_queue p.resource_end)).set p.resource_end
          (slot p.reference_queue i)
      resource_end := (p.resource_end + 1) % p.maxsize
      available := p.available + 1
      notifyCount := p.notifyCount + 1 } = p.unavailable_range.tail := by
  have h2 := put_WF h hi hiu hcap
  have hav := h.avail_nonneg
  have halt := avail_lt_maxsize_of_unavailable h hiu
  rw [unavailable_range_eq h2, unavailable_range_eq h]
  have ht1 : (p.available + 1).toNat = p.available.toNat + 1 := by omega
  have hlen2 : p.maxsize - p.available.toNat = (p.maxsize - (p.available.toNat + 1)) + 1 := by
    omega
  rw [hlen2, List.range_succ_eq_map, List.map_cons, List.tail_cons, List.map_map]
  simp only [CuttlePool.maxsize, CuttlePool.ringIdx, ht1]
  apply List.map_congr_left
  intro t _
  simp only [Function.comp]
  congr 1
  omega

theorem put_resource_step {p : CuttlePool} {i : Nat} {rt : _ResourceTracker} (h : WF p)
    (hi : slot p.reference_queue i = some rt) (hiu : i ∈ p.unavailable_range) :
    ∃ p2, p.put_resource rt.resource = .ok p2 ∧ WF p2 ∧
      (p2.unavailable_range = p.unavailable_range.tail ∨
        p2.unavailable_range = p.unavailable_range) := by
  by_cases hcap : p.available < (p.capacity : Int)
  · refine ⟨_, put_resource_swap h hi hiu hcap, put_WF h hi hiu hcap, Or.inl ?_⟩
    exact unavailable_range_tail h hi hiu hcap
  · refine ⟨_, put_resource_overflow h hi hcap, ?_, Or.inr rfl⟩
    exact remove_WF h hi (fun k hk => unavailable_ne_region h hiu hk)

theorem suffix_tail_of_cons {l rest' : List Nat} {a : Nat} (h : (a :: rest') <:+ l) :
    rest' <:+ l.tail := by
  obtain ⟨pre, hpre⟩ := h
  cases pre with
  | nil =>
    rw [← hpre]
    simp
  | cons x xs =>
    rw [← hpre]
    exact ⟨xs ++ [a], by simp⟩

theorem harvestLoop_ok {rest : List Nat} :
    ∀ {p : CuttlePool}, WF p → rest <:+ p.unavailable_range →
      ∃ q, CuttlePool.harvestLoop p rest = .ok q ∧ WF q := by
  induction rest with
  | nil => intro p h _; exact ⟨p, rfl, h⟩
  | cons i rest' ih =>
    intro p h hsuf
    have hmem : i ∈ p.unavailable_range := hsuf.subset (List.mem_cons_self _ _)
    have hsuf' : rest' <:+ p.unavailable_range :=
      List.IsSuffix.trans (List.suffix_cons i rest') hsuf
    cases hslot : slot p.reference_queue i with
    | none =>
      obtain ⟨q, hq, hwq⟩ := ih h hsuf'
      exact ⟨q, by simp only [CuttlePool.harvestLoop, hslot, hq], hwq⟩
    | some rt =>
      by_cases hav : rt.available = true
      · obtain ⟨p2, hok, h2, hrange⟩ := put_resource_step h hslot hmem
        have hsuf2 : rest' <:+ p2.unavailable_range := by
          rcases hrange with hr | hr
          · rw [hr]
            exact suffix_tail_of_cons hsuf
          · rw [hr]
            exact hsuf'
        obtain ⟨q, hq, hwq⟩ := ih h2 hsuf2
        exact ⟨q, by simp only [CuttlePool.harvestLoop, hslot, hav, if_true, hok, hq], hwq⟩
      · rw [Bool.not_eq_true] at hav
        obtain ⟨q, hq, hwq⟩ := ih h hsuf'
        refine ⟨q, ?_, hwq⟩
        simp only [CuttlePool.harvestLoop, hslot, hav, Bool.false_eq_true, if_false, hq]

theorem harvest_ok {p : CuttlePool} (h : WF p) :
    ∃ q, p._harvest_lost_resources = .ok q ∧ WF q :=
  harvestLoop_ok h (List.suffix_refl _)

theorem harvestLoop_noop {rest : List Nat} {p : CuttlePool}
    (hno : ∀ i ∈ rest, ∀ rt, slot p.reference_queue i = some rt → rt.available = false) :
    CuttlePool.harvestLoop p rest = .ok p := by
  induction rest with
  | nil => rfl
  | cons i rest' ih =>
    have ih2 := ih (fun j hj => hno j (List.mem_cons_of_mem _ hj))
    cases hslot : slot p.reference_queue i with
    | none => simp only [CuttlePool.harvestLoop, hslot, ih2]
    | some rt =>
      have hf := hno i (List.mem_cons_self _ _) rt hslot
      simp only [CuttlePool.harvestLoop, hslot, hf, Bool.false_eq_true, if_false, ih2]

theorem harvest_noop {p : CuttlePool}
    (hno : ∀ i ∈ p.unavailable_range, ∀ rt, slot p.reference_queue i = some rt →
      rt.available = false) :
    p._harvest_lost_resources = .ok p :=
  harvestLoop_noop hno

/-! ### Specification of `get_resource` -/

theorem get_empty_error {p : CuttlePool} (hq : p.empty = true) :
    p._get = .error .PoolEmptyError := by
  simp [CuttlePool._get, hq]

theorem pingPhase_true {ping : Nat → Bool} {rt : _ResourceTracker} {w : Resource}
    {p : CuttlePool} (hp : ping rt.resource = true) :
    CuttlePool.pingPhase ping rt w p = .ok (w, p) := by
  simp [CuttlePool.pingPhase, hp]

theorem unavailable_range_set_size_nextId (p : CuttlePool)
    (v : List (Option _ResourceTracker)) (n : Int) (d : Nat) (c : Nat) :
    CuttlePool.unavailable_range
      { p with reference_queue := v, size := n, nextId := d, notifyCount := c } =
    p.unavailable_range := rfl

theorem pingPhase_false_spec {ping : Nat → Bool} {rt : _ResourceTracker} {w : Resource}
    {p : CuttlePool} {i : Nat} (h : WF p) (hp : ping rt.resource = false)
    (hi : slot p.reference_queue i = some rt) (hiu : i ∈ p.unavailable_range) :
    ∃ p3, CuttlePool.pingPhase ping rt w p = .ok
      ({ _resource := some p.nextId, _pool := true }, p3) ∧ WF p3 := by
  have hnr : ∀ k < p.available.toNat, i ≠ p.ringIdx k :=
    fun k hk => unavailable_ne_region h hiu hk
  have hrm := remove_spec h hi
  have hwf4 := remove_WF h hi hnr
  have hilen : i < p.reference_queue.length := lt_of_slot_eq_some hi
  have hslot4 : slot (p.reference_queue.set i none) i = none := slot_set_self hilen none
  have hiu4 : i ∈ CuttlePool.unavailable_range
      { p with reference_queue := p.reference_queue.set i none, size := p.size - 1 } := hiu
  obtain ⟨i2, hfound⟩ := make_finds_of_none_slot (p := { p with
    reference_queue := p.reference_queue.set i none, size := p.size - 1 }) hiu4 hslot4
  have hmk := make_spec hfound
  have hmem := make_found_mem hfound
  have hwf5 := make_WF hwf4 hmem.1 hmem.2
  refine ⟨_, ?_, hwf5⟩
  simp only [CuttlePool.pingPhase, hp, Bool.false_eq_true, if_false, hrm, hmk]

theorem pingPhase_never_errors (ping : Nat → Bool) {rt : _ResourceTracker} (w : Resource)
    {p : CuttlePool} {i : Nat} (h : WF p) (hi : slot p.reference_queue i = some rt)
    (hiu : i ∈ p.unavailable_range) :
    ∃ res, CuttlePool.pingPhase ping rt w p = .ok res := by
  by_cases hp : ping rt.resource = true
  · exact ⟨(w, p), pingPhase_true hp⟩
  · rw [Bool.not_eq_true] at hp
    obtain ⟨p3, hok, _⟩ := pingPhase_false_spec h hp hi hiu
    exact ⟨_, hok⟩

theorem after_get_start_mem {p : CuttlePool} {rt : _ResourceTracker} (h : WF p)
    (hne : p.empty = false) (hrt : slot p.reference_queue p.resource_start = some rt) :
    p.resource_start ∈ CuttlePool.unavailable_range { p with
      reference_queue := p.reference_queue.set p.resource_start
        (some { rt with wref := some true })
      resource_start := (p.resource_start + 1) % p.maxsize
      available := p.available - 1 } := by
  have h2 := get_WF h hne hrt
  have hpos := avail_toNat_pos_of_not_empty h hne
  have ham := h.avail_toNat_le
  have hm := h.maxsize_pos
  have hnn := h.avail_nonneg
  rw [mem_unavailable_range h2]
  refine ⟨p.maxsize - p.available.toNat, ?_, ?_⟩
  · show p.maxsize - p.available.toNat <
      (p.capacity + p.overflow) - (p.available - 1).toNat
    have h1 : (p.available - 1).toNat = p.available.toNat - 1 := by omega
    have h3 : p.maxsize = p.capacity + p.overflow := rfl
    omega
  · show p.resource_start =
      ((p.resource_start + 1) % p.maxsize +
        ((p.available - 1).toNat + (p.maxsize - p.available.toNat))) %
        (p.capacity + p.overflow)
    have h1 : (p.available - 1).toNat = p.available.toNat - 1 := by omega
    have h3 : p.maxsize = p.capacity + p.overflow := rfl
    rw [h1, ← h3, Nat.mod_add_mod]
    have h4 : p.resource_start + 1 + (p.available.toNat - 1 + (p.maxsize - p.available.toNat)) =
        p.resource_start + p.maxsize := by omega
    rw [h4, Nat.add_mod_right, Nat.mod_eq_of_lt h.start_lt]

theorem get_resource_branches (ping : Nat → Bool) (p q : CuttlePool) (h : WF p)
    (hq : (if p.empty = true then p._harvest_lost_resources else Except.ok p) = .ok q)
    (hwq : WF q) :
    (q.empty = false → ∃ rt, slot q.reference_queue q.resource_start = some rt ∧
      CuttlePool.get_resource ping p = CuttlePool.pingPhase ping
        { rt with wref := some true }
        { _resource := some rt.resource, _pool := true }
        { q with
          reference_queue := q.reference_queue.set q.resource_start
            (some { rt with wref := some true })
          resource_start := (q.resource_start + 1) % q.maxsize
          available := q.available - 1 }) ∧
    (q.empty = true → ∀ i, q.unavailable_range.find?
        (fun u => slot q.reference_queue u == none) = some i →
      CuttlePool.get_resource ping p = CuttlePool.pingPhase ping
        { resource := q.nextId, wref := some true }
        { _resource := some q.nextId, _pool := true }
        { q with
          reference_queue := q.reference_queue.set i
            (some { resource := q.nextId, wref := some true })
          size := q.size + 1
          nextId := q.nextId + 1 }) ∧
    (q.empty = true → q.unavailable_range.find?
        (fun u => slot q.reference_queue u == none) = none →
      CuttlePool.get_resource ping p = .error .PoolEmptyError) := by
  refine ⟨?_, ?_, ?_⟩
  · intro hqe
    obtain ⟨rt, hrt⟩ := slot_start_some hwq hqe
    refine ⟨rt, hrt, ?_⟩
    have hg := get_spec hqe hrt
    simp only [CuttlePool.get_resource, hq, hg]
  · intro hqe i hfound
    have hg := get_empty_error hqe
    have hmk := make_spec hfound
    simp only [CuttlePool.get_resource, hq, hg, hmk]
  · intro hqe hfound
    have hg := get_empty_error hqe
    have hmk : q._make_resource = .error .PoolFullError := make_fails_iff.mpr hfound
    simp only [CuttlePool.get_resource, hq, hg, hmk]

/-! ### Remaining helper lemmas for the claims -/

theorem slot_replicate (n i : Nat) : slot (List.replicate n none) i = none := by
  simp only [slot, List.getD_eq_getElem?_getD, List.getElem?_replicate]
  split <;> rfl

theorem WF_fresh {c o : Nat} {t : Option Int} (hc : 0 < c) : WF (mkFreshPool c o t) := by
  refine ⟨hc, ?_, ?_, ?_, ?_, ?_, ?_, ?_, ?_, ?_, ?_, ?_⟩
  · simp [mkFreshPool, CuttlePool.maxsize]
  · show 0 < c + o
    omega
  · show (0 : Int) ≤ 0
    omega
  · show (0 : Int) ≤ (c : Int)
    omega
  · show (0 : Int) ≤ 0
    omega
  · show (0 : Int) = (countSome (List.replicate (c + o) none) : Int)
    have h0 : countSome (List.replicate (c + o) (none : Option _ResourceTracker)) = 0 := by
      rw [countSome, List.countP_eq_zero]
      intro s hs
      rw [List.eq_of_mem_replicate hs]
      simp
    rw [h0]
    rfl
  · show (0 : Int) ≤ ((c + o : Nat) : Int)
    omega
  · show 0 = (0 + (0 : Int).toNat) % (c + o)
    simp
  · intro k hk
    have hk2 : k < (0 : Int).toNat := hk
    simp at hk2
  · intro i _ j _ _
    rw [show slot (mkFreshPool c o t).reference_queue i = none from slot_replicate _ _]
    exact idsDifferB_none_left _
  · intro i _
    rw [show slot (mkFreshPool c o t).reference_queue i = none from slot_replicate _ _]
    rfl

theorem get_tracker_ok_inv {p : CuttlePool} {r : Nat} {rt : _ResourceTracker}
    (h : p._get_tracker r = .ok rt) :
    rt.resource = r ∧ ∃ i, i < p.reference_queue.length ∧ slot p.reference_queue i = some rt := by
  unfold CuttlePool._get_tracker at h
  cases hc : p.reference_queue.find? (fun s =>
      match s with
      | some rt' => rt'.resource == r
      | none => false) with
  | none => rw [hc] at h; exact absurd h (by simp)
  | some x =>
    rw [hc] at h
    have hpx := List.find?_some hc
    have hmem := List.mem_of_find?_eq_some hc
    cases x with
    | none => simp at hpx
    | some rt' =>
      have : rt' = rt := by
        by_contra hne
        simp [hne] at h
      subst this
      refine ⟨by simpa using hpx, ?_⟩
      obtain ⟨j, hj, hjs⟩ := exists_slot_of_mem hmem
      exact ⟨j, hj, hjs⟩

theorem ringIdx_surj {p : CuttlePool} (h : WF p) {i : Nat} (hi : i < p.maxsize) :
    ∃ k, k < p.maxsize ∧ i = p.ringIdx k := by
  have hs := h.start_lt
  refine ⟨(i + p.maxsize - p.resource_start) % p.maxsize, Nat.mod_lt _ h.maxsize_pos, ?_⟩
  show i = (p.resource_start + (i + p.maxsize - p.resource_start) % p.maxsize) % p.maxsize
  rw [Nat.add_mod_mod]
  have h1 : p.resource_start + (i + p.maxsize - p.resource_start) = i + p.maxsize := by omega
  rw [h1, Nat.add_mod_right, Nat.mod_eq_of_lt hi]

theorem put_resource_unknown_of {p : CuttlePool} {r : Nat}
    (hno : ∀ s ∈ p.reference_queue, ∀ rt, s = some rt → rt.resource ≠ r) :
    p.put_resource r = .error .UnknownResourceError := by
  have hfind : p.reference_queue.find? (fun s =>
      match s with
      | some rt' => rt'.resource == r
      | none => false) = none := by
    rw [List.find?_eq_none]
    intro x hx
    cases x with
    | none => simp
    | some rt => simp [hno (some rt) hx rt rfl]
  simp only [CuttlePool.put_resource, CuttlePool._get_tracker, hfind]

theorem pingPhase_WF {ping : Nat → Bool} {rt : _ResourceTracker} {w w2 : Resource}
    {p p2 : CuttlePool} {i : Nat} (h : WF p) (hi : slot p.reference_queue i = some rt)
    (hiu : i ∈ p.unavailable_range)
    (hok : CuttlePool.pingPhase ping rt w p = .ok (w2, p2)) : WF p2 := by
  by_cases hp : ping rt.resource = true
  · rw [pingPhase_true hp] at hok
    have h1 := Except.ok.inj hok
    have hp2 : p = p2 := congrArg Prod.snd h1
    rw [← hp2]
    exact h
  · rw [Bool.not_eq_true] at hp
    obtain ⟨p3, hok2, hwf3⟩ := pingPhase_false_spec (w := w) h hp hi hiu
    rw [hok2] at hok
    have h1 := Except.ok.inj hok
    have hp2 : p3 = p2 := congrArg Prod.snd h1
    rw [← hp2]
    exact hwf3

theorem harvest_branch_ok {p : CuttlePool} (h : WF p) :
    ∃ q, (if p.empty = true then p._harvest_lost_resources else Except.ok p) = .ok q ∧
      WF q := by
  cases hpe : p.empty with
  | true =>
    obtain ⟨q, hq, hwq⟩ := harvest_ok h
    exact ⟨q, by simp [hq], hwq⟩
  | false => exact ⟨p, by simp, h⟩

theorem get_resource_WF {ping : Nat → Bool} {p p2 : CuttlePool} {w : Resource} (h : WF p)
    (hok : CuttlePool.get_resource ping p = .ok (w, p2)) : WF p2 := by
  obtain ⟨q, hq, hwq⟩ := harvest_branch_ok h
  obtain ⟨b1, b2, b3⟩ := get_resource_branches ping p q h hq hwq
  cases hqe : q.empty with
  | false =>
    obtain ⟨rt, hrt, heq⟩ := b1 hqe
    rw [heq] at hok
    have h2wf := get_WF hwq hqe hrt
    have hslot2 := slot_set_self (lt_of_slot_eq_some hrt)
      (some { rt with wref := some true })
    have hmem2 := after_get_start_mem hwq hqe hrt
    exact pingPhase_WF h2wf hslot2 hmem2 hok
  | true =>
    cases hfind : q.unavailable_range.find? (fun u => slot q.reference_queue u == none) with
    | some i =>
      have heq := b2 hqe i hfind
      rw [heq] at hok
      have hmem := make_found_mem hfind
      have h3wf := make_WF hwq hmem.1 hmem.2
      have hilen : i < q.reference_queue.length := by
        rw [hwq.len]
        exact unavailable_lt_maxsize hwq hmem.1
      have hslot3 := slot_set_self hilen (some { resource := q.nextId, wref := some true })
      exact pingPhase_WF h3wf hslot3 hmem.1 hok
    | none =>
      have heq := b3 hqe hfind
      rw [heq] at hok
      exact absurd hok (by simp)

theorem put_resource_WF {p p2 : CuttlePool} {r : Nat} (h : WF p)
    (hreg : ∀ k < p.available.toNat, ∀ rt,
      slot p.reference_queue (p.ringIdx k) = some rt → rt.resource ≠ r)
    (hok : p.put_resource r = .ok p2) : WF p2 := by
  cases hgt : p._get_tracker r with
  | error e => simp [CuttlePool.put_resource, hgt] at hok
  | ok rt =>
    obtain ⟨hid, i, hilen, hi⟩ := get_tracker_ok_inv hgt
    have hnr : ∀ k < p.available.toNat, i ≠ p.ringIdx k := by
      intro k hk hc
      exact hreg k hk rt (hc ▸ hi) hid
    have hiu : i ∈ p.unavailable_range := by
      have him : i < p.maxsize := h.len ▸ hilen
      obtain ⟨k, hkm, hik⟩ := ringIdx_surj h him
      have hka : ¬ k < p.available.toNat := fun hk => hnr k hk hik
      rw [mem_unavailable_range h]
      have ha := h.avail_toNat_le
      refine ⟨k - p.available.toNat, by omega, ?_⟩
      rw [hik]
      show p.ringIdx k = p.ringIdx _
      congr 1
      omega
    by_cases hcap : p.available < (p.capacity : Int)
    · have hspec := put_resource_swap h hi hiu hcap
      rw [hid] at hspec
      rw [hspec] at hok
      rw [← Except.ok.inj hok]
      exact put_WF h hi hiu hcap
    · have hspec := put_resource_overflow h hi hcap
      rw [hid] at hspec
      rw [hspec] at hok
      rw [← Except.ok.inj hok]
      exact remove_WF h hi hnr

theorem harvest_WF {p p2 : CuttlePool} (h : WF p)
    (hok : p._harvest_lost_resources = .ok p2) : WF p2 := by
  obtain ⟨q, hq, hwq⟩ := harvest_ok h
  rw [hok] at hq
  rw [Except.ok.inj hq]
  exact hwq

theorem close_then_get {p1 : CuttlePool} {i : Nat} {rt : _ResourceTracker}
    (h1 : WF p1) (ha0 : p1.available = 0) (hi : slot p1.reference_queue i = some rt)
    (hiu : i ∈ p1.unavailable_range) :
    ∃ p2 w2 p3,
      Resource.close { _resource := some rt.resource, _pool := true } p1 =
        .ok ({ _resource := none, _pool := false }, p2) ∧
      CuttlePool.get_resource pingTrue p2 = .ok (w2, p3) ∧
      w2._resource = some rt.resource := by
  have hcap : p1.available < (p1.capacity : Int) := by
    have := h1.cap_pos
    rw [ha0]
    exact_mod_cast this
  have hput := put_resource_swap h1 hi hiu hcap
  have hwf2 := put_WF h1 hi hiu hcap
  have hilen : i < p1.reference_queue.length := lt_of_slot_eq_some hi
  have helen : p1.resource_end < p1.reference_queue.length := by
    have := h1.end_lt
    rw [h1.len]
    exact this
  have hstart_end : p1.resource_end = p1.resource_start := by
    rw [h1.end_eq, ha0]
    show (p1.resource_start + (0 : Int).toNat) % p1.maxsize = _
    simp [Nat.mod_eq_of_lt h1.start_lt]
  have hclose : Resource.close { _resource := some rt.resource, _pool := true } p1 =
      .ok ({ _resource := none, _pool := false }, { p1 with
        reference_queue := (p1.reference_queue.set i
            (slot p1.reference_queue p1.resource_end)).set p1.resource_end
            (slot p1.reference_queue i)
        resource_end := (p1.resource_end + 1) % p1.maxsize
        available := p1.available + 1
        notifyCount := p1.notifyCount + 1 }) := by
    simp only [Resource.close, hput]
  have hslotP2 : slot ((p1.reference_queue.set i
      (slot p1.reference_queue p1.resource_end)).set p1.resource_end
      (slot p1.reference_queue i)) p1.resource_start = some rt := by
    rw [← hstart_end, slot_swap hilen helen p1.resource_end, if_pos rfl]
    exact hi
  have hP2ne : CuttlePool.empty { p1 with
      reference_queue := (p1.reference_queue.set i
          (slot p1.reference_queue p1.resource_end)).set p1.resource_end
          (slot p1.reference_queue i)
      resource_end := (p1.resource_end + 1) % p1.maxsize
      available := p1.available + 1
      notifyCount := p1.notifyCount + 1 } = false := by
    show (p1.available + 1 == 0) = false
    rw [ha0]
    decide
  have hq2 := harvest_branch_ok hwf2
  obtain ⟨q2, hq2eq, hwq2⟩ := hq2
  have hq2p : q2 = { p1 with
      reference_queue := (p1.reference_queue.set i
          (slot p1.reference_queue p1.resource_end)).set p1.resource_end
          (slot p1.reference_queue i)
      resource_end := (p1.resource_end + 1) % p1.maxsize
      available := p1.available + 1
      notifyCount := p1.notifyCount + 1 } := by
    rw [hP2ne] at hq2eq
    simp at hq2eq
    exact hq2eq.symm
  subst hq2p
  obtain ⟨b1, _, _⟩ := get_resource_branches pingTrue _ _ hwf2 hq2eq hwq2
  obtain ⟨rt', hrt', heq⟩ := b1 hP2ne
  have hcomp : some rt = some rt' :=
    hslotP2.symm.trans (show slot _ p1.resource_start = some rt' from hrt')
  have hrtrt : rt = rt' := Option.some_inj.mp hcomp
  subst hrtrt
  exact ⟨_, _, _, hclose, by rw [heq]; exact pingPhase_true rfl, rfl⟩

/-! ### Concrete pool states used by the witnesses and counterexamples

Each state is reachable by the operation chain recorded next to it (several
are re-verified inside counterexample theorems by evaluating the chain). -/

/-- Pool `capacity=1, overflow=0, timeout=5` right after one `get_resource`:
resource `0` is checked out. -/
def poolB : CuttlePool :=
  ⟨1, 0, some 5, [some ⟨0, some true⟩], 0, 0, 1, 0, 1, 0⟩

/-- The pool `poolB` after its resource is returned. -/
def poolBret : CuttlePool :=
  ⟨1, 0, some 5, [some ⟨0, some true⟩], 0, 0, 1, 1, 1, 1⟩

/-- Pool `capacity=2, overflow=0` after `get_resource` and `put_resource`:
resource `0` sits in the available region, the second slot is empty. -/
def poolC : CuttlePool :=
  ⟨2, 0, none, [some ⟨0, some true⟩, none], 0, 1, 1, 1, 1, 1⟩

/-- The state reached from `poolC` by one `get_resource` (resource `0` checked
out again). -/
def poolCg : CuttlePool :=
  ⟨2, 0, none, [some ⟨0, some true⟩, none], 1, 1, 1, 0, 1, 1⟩

/-! ### C5 -/

/-- C5: `CuttlePool.__init__` raises ValueError for every `capacity ≤ 0`,
ValueError for every `overflow < 0`, TypeError for every non-None timeout
whose type is not `int` (`PyTimeout.pyNonInt` models such a value, e.g. the
float `-0.1`; the type check precedes the sign check, so TypeError rather
than ValueError is raised), ValueError for every negative integer timeout,
and raises none of these for arguments in domain. -/
theorem spec_C5_init_validation :
    (∀ (c o : Int) (t : PyTimeout), c ≤ 0 → cuttlePoolInit c o t = .error .valueError) ∧
    (∀ (c o : Int) (t : PyTimeout), 0 < c → o < 0 →
      cuttlePoolInit c o t = .error .valueError) ∧
    (∀ c o : Int, 0 < c → 0 ≤ o → cuttlePoolInit c o .pyNonInt = .error .typeError) ∧
    (∀ c o n : Int, 0 < c → 0 ≤ o → n < 0 →
      cuttlePoolInit c o (.pyInt n) = .error .valueError) ∧
    (∀ c o : Int, 0 < c → 0 ≤ o →
      cuttlePoolInit c o .pyNone = .ok (mkFreshPool c.toNat o.toNat none)) ∧
    (∀ c o n : Int, 0 < c → 0 ≤ o → 0 ≤ n →
      cuttlePoolInit c o (.pyInt n) = .ok (mkFreshPool c.toNat o.toNat (some n))) := by
  refine ⟨?_, ?_, ?_, ?_, ?_, ?_⟩
  · intro c o t hc
    unfold cuttlePoolInit
    rw [if_pos hc]
  · intro c o t hc ho
    unfold cuttlePoolInit
    rw [if_neg (by omega), if_pos ho]
  · intro c o hc ho
    unfold cuttlePoolInit
    rw [if_neg (by omega), if_neg (by omega)]
  · intro c o n hc ho hn
    unfold cuttlePoolInit
    rw [if_neg (by omega), if_neg (by omega)]
    simp only [if_pos hn]
  · intro c o hc ho
    unfold cuttlePoolInit
    rw [if_neg (by omega), if_neg (by omega)]
  · intro c o n hc ho hn
    unfold cuttlePoolInit
    rw [if_neg (by omega), if_neg (by omega)]
    simp only [if_neg (by omega : ¬ n < 0)]

theorem spec_C5_init_validation_witness :
    cuttlePoolInit 0 0 .pyNone = .error .valueError ∧
    cuttlePoolInit 1 (-1) .pyNone = .error .valueError ∧
    cuttlePoolInit 1 0 .pyNonInt = .error .typeError ∧
    cuttlePoolInit 1 0 (.pyInt (-1)) = .error .valueError ∧
    cuttlePoolInit 1 0 (.pyInt 5) = .ok (mkFreshPool 1 0 (some 5)) :=
  ⟨spec_C5_init_validation.1 0 0 .pyNone (by decide),
   spec_C5_init_validation.2.1 1 (-1) .pyNone (by decide) (by decide),
   spec_C5_init_validation.2.2.1 1 0 (by decide) (by decide),
   spec_C5_init_validation.2.2.2.1 1 0 (-1) (by decide) (by decide) (by decide),
   (spec_C5_init_validation.2.2.2.2.2 1 0 5 (by decide) (by decide) (by decide)).trans
     (by decide)⟩

/-! ### C6 -/

/-- C6: when no slot of the reference queue holds a tracker for `r`,
`put_resource` raises UnknownResourceError.  The error is raised by
`_get_tracker` before any state is touched; in this pure embedding the error
result carries no successor state, which models exactly that the ring,
`resource_start`, `resource_end`, `size` and `available` are unchanged. -/
theorem spec_C6_put_unknown_resource (p : CuttlePool) (r : Nat)
    (hno : ∀ s ∈ p.reference_queue, ∀ rt, s = some rt → rt.resource ≠ r) :
    p.put_resource r = .error .UnknownResourceError :=
  put_resource_unknown_of hno

theorem spec_C6_put_unknown_resource_witness :
    (mkFreshPool 1 0 none).put_resource 7 = .error .UnknownResourceError :=
  spec_C6_put_unknown_resource (mkFreshPool 1 0 none) 7 (by decide)

/-! ### C7 -/

/-- C7: for a wrapper whose `_resource` is not None and whose resource the
pool accepts back (`put_resource` succeeds), the first `close` returns the
resource via `put_resource` and clears both the resource and the pool
reference; every further `close` of the cleared wrapper is a no-op on any
pool state, so `close` is idempotent. -/
theorem spec_C7_close_idempotent (w : Resource) (p p2 : CuttlePool) (r : Nat)
    (hw : w._resource = some r) (hput : p.put_resource r = .ok p2) :
    Resource.close w p = .ok ({ _resource := none, _pool := false }, p2) ∧
    (∀ p3 : CuttlePool,
      Resource.close { _resource := none, _pool := false } p3 =
        .ok ({ _resource := none, _pool := false }, p3)) := by
  constructor
  · simp only [Resource.close, hw, hput]
  · intro p3
    rfl

theorem spec_C7_close_idempotent_witness :
    Resource.close { _resource := some 0, _pool := true } poolB =
      .ok ({ _resource := none, _pool := false }, poolBret) ∧
    Resource.close { _resource := none, _pool := false } poolBret =
      .ok ({ _resource := none, _pool := false }, poolBret) :=
  ⟨(spec_C7_close_idempotent { _resource := some 0, _pool := true } poolB poolBret 0
      rfl (by decide)).1,
   (spec_C7_close_idempotent { _resource := some 0, _pool := true } poolB poolBret 0
      rfl (by decide)).2 poolBret⟩

/-! ### C9 -/

/-- C9 counterexample: `Resource.__init__` performs no validation at all, so
constructing a wrapper over resource `99` succeeds on a fresh pool even
though the pool's reference queue (`[none]`) tracks no resource at all and
`_get_tracker 99` reports UnknownResourceError.  The claim that wrapper
construction fails with UnknownResource for an untracked resource is
therefore false on the code. -/
theorem spec_C9_wrapper_init_counterexample :
    resourceInit 99 (mkFreshPool 1 0 none) =
      .ok { _resource := some 99, _pool := true } ∧
    (mkFreshPool 1 0 none).reference_queue = [none] ∧
    (mkFreshPool 1 0 none)._get_tracker 99 = .error .UnknownResourceError := by
  refine ⟨rfl, rfl, by decide⟩

/-- C9 amended: wrapper construction performs no validation and succeeds for
every resource and pool; an untracked resource is only detected later, when
the wrapper is closed and `put_resource` raises UnknownResourceError. -/
theorem spec_C9_wrapper_init_amended (r : Nat) (p : CuttlePool)
    (hno : ∀ s ∈ p.reference_queue, ∀ rt, s = some rt → rt.resource ≠ r) :
    resourceInit r p = .ok { _resource := some r, _pool := true } ∧
    Resource.close { _resource := some r, _pool := true } p =
      .error .UnknownResourceError := by
  refine ⟨rfl, ?_⟩
  simp only [Resource.close, put_resource_unknown_of hno]

theorem spec_C9_wrapper_init_amended_witness :
    resourceInit 99 (mkFreshPool 1 0 none) =
      .ok { _resource := some 99, _pool := true } ∧
    Resource.close { _resource := some 99, _pool := true } (mkFreshPool 1 0 none) =
      .error .UnknownResourceError :=
  spec_C9_wrapper_init_amended 99 (mkFreshPool 1 0 none) (by decide)

/-! ### C2 -/

/-- C2: returning a checked-out resource (its tracker occupies slot `i` of
the unavailable region).  When `available < capacity`, `put_resource` swaps
slot `i` with the slot at `resource_end`, advances `resource_end` modulo
`maxsize`, increments `available` by one leaving `size` unchanged, and
notifies exactly one waiter (`notifyCount` grows by one).  When
`available = capacity`, the tracker is removed instead: its slot is cleared
and `size` drops by one while `available` and `notifyCount` stay put; the
pool performs no operation on the resource itself (in particular its native
close is never invoked — the model records no close effect). -/
theorem spec_C2_put_return (p : CuttlePool) (i : Nat) (rt : _ResourceTracker) (h : WF p)
    (hi : slot p.reference_queue i = some rt) (hiu : i ∈ p.unavailable_range) :
    (p.available < (p.capacity : Int) → ∃ p2, p.put_resource rt.resource = .ok p2 ∧
      p2.reference_queue = (p.reference_queue.set i
        (slot p.reference_queue p.resource_end)).set p.resource_end
        (slot p.reference_queue i) ∧
      p2.resource_end = (p.resource_end + 1) % p.maxsize ∧
      p2.available = p.available + 1 ∧
      p2.size = p.size ∧
      p2.notifyCount = p.notifyCount + 1 ∧
      p2.resource_start = p.resource_start) ∧
    (p.available = (p.capacity : Int) → ∃ p2, p.put_resource rt.resource = .ok p2 ∧
      p2.reference_queue = p.reference_queue.set i none ∧
      p2.size = p.size - 1 ∧
      p2.available = p.available ∧
      p2.notifyCount = p.notifyCount ∧
      p2.resource_end = p.resource_end ∧
      p2.resource_start = p.resource_start) := by
  constructor
  · intro hcap
    exact ⟨_, put_resource_swap h hi hiu hcap, rfl, rfl, rfl, rfl, rfl, rfl⟩
  · intro hcap
    exact ⟨_, put_resource_overflow h hi (by omega), rfl, rfl, rfl, rfl, rfl, rfl⟩

theorem spec_C2_put_return_witness :
    WF poolB ∧ poolB.available < (poolB.capacity : Int) ∧
    (∃ p2, poolB.put_resource 0 = .ok p2 ∧
      p2.reference_queue = (poolB.reference_queue.set 0
        (slot poolB.reference_queue poolB.resource_end)).set poolB.resource_end
        (slot poolB.reference_queue 0) ∧
      p2.resource_end = (poolB.resource_end + 1) % poolB.maxsize ∧
      p2.available = poolB.available + 1 ∧
      p2.size = poolB.size ∧
      p2.notifyCount = poolB.notifyCount + 1 ∧
      p2.resource_start = poolB.resource_start) :=
  ⟨by decide, by decide,
   (spec_C2_put_return poolB 0 ⟨0, some true⟩ (by decide) (by decide) (by decide)).1
     (by decide)⟩

/-! ### C10 -/

/-- C10: a double return.  The resource's tracker sits in the available
region (at ring position `k < available`), and `available < capacity`, so
`_put` scans only the unavailable region, misses the tracker, and raises
UnknownResourceError, which `put_resource` does not catch.  As in C6, the
pure model's error branch returns no successor state: `available` and `size`
are untouched. -/
theorem spec_C10_double_return (p : CuttlePool) (k : Nat) (rt : _ResourceTracker)
    (h : WF p) (hk : k < p.available.toNat)
    (hrt : slot p.reference_queue (p.ringIdx k) = some rt)
    (hcap : p.available < (p.capacity : Int)) :
    p.put_resource rt.resource = .error .UnknownResourceError := by
  have hgt := get_tracker_of_slot h hrt
  have hput : p._put rt = .error .UnknownResourceError := by
    refine put_unknown hcap ?_
    intro u hu t ht hc
    have := uniq_slot h ht hrt hc
    exact unavailable_ne_region h hu hk this
  simp only [CuttlePool.put_resource, hgt, hput]

theorem spec_C10_double_return_witness :
    WF poolC ∧ poolC.put_resource 0 = .error .UnknownResourceError :=
  ⟨by decide,
   spec_C10_double_return poolC 0 ⟨0, some true⟩ (by decide) (by decide) (by decide)
     (by decide)⟩

/-! ### C1 -/

/-- C1: `get_resource` proceeds in the fixed checkout order.  With `q` the
pool state after the harvest step (`hq`; harvest runs only when the
available region is empty, as the first conjunct records): if the available
region is non-empty the head tracker is dequeued without blocking; if it is
empty, a new tracker is constructed in the first empty unavailable slot when
one exists; and when no slot is free either, the blocking `_get` is the last
resort — in this single-client model the wait can never be satisfied, so
after at most the `timeout` seconds it raises, and `get_resource` raises
PoolEmptyError.  Stated for the default always-true `ping`, so the
ping/replace phase hands the obtained wrapper through unchanged. -/
theorem spec_C1_checkout_order (p q : CuttlePool) (t : Int) (h : WF p)
    (ht : p.timeout = some t)
    (hq : (if p.empty = true then p._harvest_lost_resources else Except.ok p) = .ok q) :
    (p.empty = false → q = p) ∧
    (q.empty = false → ∃ rt, slot q.reference_queue q.resource_start = some rt ∧
      CuttlePool.get_resource pingTrue p = .ok
        ({ _resource := some rt.resource, _pool := true },
         { q with
           reference_queue := q.reference_queue.set q.resource_start
             (some { rt with wref := some true })
           resource_start := (q.resource_start + 1) % q.maxsize
           available := q.available - 1 })) ∧
    (q.empty = true → ∀ i, q.unavailable_range.find?
        (fun u => slot q.reference_queue u == none) = some i →
      CuttlePool.get_resource pingTrue p = .ok
        ({ _resource := some q.nextId, _pool := true },
         { q with
           reference_queue := q.reference_queue.set i
             (some { resource := q.nextId, wref := some true })
           size := q.size + 1
           nextId := q.nextId + 1 })) ∧
    (q.empty = true → q.unavailable_range.find?
        (fun u => slot q.reference_queue u == none) = none →
      CuttlePool.get_resource pingTrue p = .error .PoolEmptyError) := by
  have hwq : WF q := by
    cases hpe : p.empty with
    | true =>
      rw [hpe] at hq
      simp at hq
      exact harvest_WF h hq
    | false =>
      rw [hpe] at hq
      simp at hq
      rw [← hq]
      exact h
  obtain ⟨b1, b2, b3⟩ := get_resource_branches pingTrue p q h hq hwq
  refine ⟨?_, ?_, ?_, ?_⟩
  · intro hpe
    rw [hpe] at hq
    simp at hq
    exact hq.symm
  · intro hqe
    obtain ⟨rt, hrt, heq⟩ := b1 hqe
    refine ⟨rt, hrt, ?_⟩
    rw [heq]
    exact pingPhase_true rfl
  · intro hqe i hfound
    rw [b2 hqe i hfound]
    exact pingPhase_true rfl
  · intro hqe hfound
    exact b3 hqe hfound

theorem spec_C1_checkout_order_witness :
    CuttlePool.get_resource pingTrue (mkFreshPool 1 0 (some 5)) =
      .ok ({ _resource := some 0, _pool := true }, poolB) := by
  have h := (spec_C1_checkout_order (mkFreshPool 1 0 (some 5)) (mkFreshPool 1 0 (some 5))
    5 (by decide) rfl (by decide)).2.2.1 (by decide) 0 (by decide)
  exact h.trans (by decide)

/-! ### C4 -/

/-- C4: `get_resource` surfaces only PoolEmptyError.  The PoolFullError of
the grow step is caught and collapsed into the blocking wait or
PoolEmptyError, and in the ping-failure path the tracker is removed under
the same (reentrant) lock before the replacement is constructed, so the
freed unavailable slot guarantees the replacement `_make_resource` cannot
raise PoolFullError.  The statement quantifies over the user `ping` hook and
every error the call could return. -/
theorem spec_C4_no_poolfull (ping : Nat → Bool) (p : CuttlePool) (err : Err) (h : WF p)
    (he : CuttlePool.get_resource ping p = .error err) : err = .PoolEmptyError := by
  obtain ⟨q, hq, hwq⟩ := harvest_branch_ok h
  obtain ⟨b1, b2, b3⟩ := get_resource_branches ping p q h hq hwq
  cases hqe : q.empty with
  | false =>
    obtain ⟨rt, hrt, heq⟩ := b1 hqe
    rw [heq] at he
    have h2wf := get_WF hwq hqe hrt
    have hslot2 := slot_set_self (lt_of_slot_eq_some hrt)
      (some { rt with wref := some true })
    have hmem2 := after_get_start_mem hwq hqe hrt
    obtain ⟨res, hres⟩ := pingPhase_never_errors ping
      { _resource := some rt.resource, _pool := true } h2wf hslot2 hmem2
    rw [hres] at he
    exact absurd he (by simp)
  | true =>
    cases hfind : q.unavailable_range.find? (fun u => slot q.reference_queue u == none) with
    | some i =>
      have heq := b2 hqe i hfind
      rw [heq] at he
      have hmem := make_found_mem hfind
      have h3wf := make_WF hwq hmem.1 hmem.2
      have hilen : i < q.reference_queue.length := by
        rw [hwq.len]
        exact unavailable_lt_maxsize hwq hmem.1
      have hslot3 := slot_set_self hilen (some { resource := q.nextId, wref := some true })
      obtain ⟨res, hres⟩ := pingPhase_never_errors ping
        { _resource := some q.nextId, _pool := true } h3wf hslot3 hmem.1
      rw [hres] at he
      exact absurd he (by simp)
    | none =>
      have heq := b3 hqe hfind
      rw [heq] at he
      exact (Except.error.inj he).symm

theorem spec_C4_no_poolfull_witness :
    WF poolB ∧ CuttlePool.get_resource pingTrue poolB = .error Err.PoolEmptyError ∧
    Err.PoolEmptyError = Err.PoolEmptyError :=
  ⟨by decide, by decide,
   spec_C4_no_poolfull pingTrue poolB Err.PoolEmptyError (by decide) (by decide)⟩

/-! ### C3 -/

/-- Pool `capacity=1, overflow=0` with its single resource made and returned:
`available = size = 1`. -/
def c3pool : CuttlePool :=
  ⟨1, 0, none, [some ⟨0, some true⟩], 0, 0, 1, 1, 1, 1⟩

/-- The operation chain that reaches `c3pool` from a fresh pool. -/
def c3setup : Except Err CuttlePool := do
  let (_, p1) ← (mkFreshPool 1 0 none).get_resource pingTrue
  p1.put_resource 0

/-- The corrupted state produced by returning resource `0` a second time:
its tracker, already in the available region, is not found by `_put`
(PoolFullError, since `available = capacity`), so `put_resource` falls back
to `_remove`, clearing the available slot and decrementing `size` while
`available` stays `1`. -/
def c3broken : CuttlePool :=
  ⟨1, 0, none, [none], 0, 0, 0, 1, 1, 1⟩

/-- C3 counterexample: the inequality `available ≤ size` is not preserved by
every public `put_resource` call.  From a fresh `capacity=1` pool, the chain
get; put reaches the well-formed state `c3pool`; a second `put_resource`
of the same resource (a double return at `available = capacity`) succeeds
and leaves `available = 1 > 0 = size`. -/
theorem spec_C3_invariant_counterexample :
    c3setup = .ok c3pool ∧ WF c3pool ∧
    c3pool.put_resource 0 = .ok c3broken ∧
    ¬ (c3broken.available ≤ c3broken.size) := by
  refine ⟨by decide, by decide, by decide, by decide⟩

/-- C3 amended: for every pool constructed with `capacity ≥ 1` and
`overflow ≥ 0` the inequality `0 ≤ available ≤ size ≤ capacity + overflow`
holds initially and is preserved by `get_resource` (any `ping` hook), by the
harvest performed during checkout, and by every `put_resource` call whose
resource is untracked or whose tracker is not in the available region — that
is, by every return that is not a double return.  (The counterexample shows
the proviso is necessary: a double return at `available = capacity` breaks
`available ≤ size`.)  The invariant is carried by the representation
predicate `WF`, which implies the claimed inequality chain. -/
theorem spec_C3_invariant_amended :
    (∀ (c o : Nat) (t : Option Int), 0 < c → WF (mkFreshPool c o t)) ∧
    (∀ p : CuttlePool, WF p →
      0 ≤ p.available ∧ p.available ≤ p.size ∧ p.size ≤ (p.maxsize : Int)) ∧
    (∀ (ping : Nat → Bool) (p p2 : CuttlePool) (w : Resource), WF p →
      CuttlePool.get_resource ping p = .ok (w, p2) → WF p2) ∧
    (∀ (p p2 : CuttlePool) (r : Nat), WF p →
      (∀ k < p.available.toNat, ∀ rt, slot p.reference_queue (p.ringIdx k) = some rt →
        rt.resource ≠ r) →
      p.put_resource r = .ok p2 → WF p2) ∧
    (∀ p p2 : CuttlePool, WF p → p._harvest_lost_resources = .ok p2 → WF p2) :=
  ⟨fun _ _ _ hc => WF_fresh hc,
   fun p hp => ⟨hp.avail_nonneg, hp.avail_le_size, hp.size_le⟩,
   fun _ _ _ _ hp hok => get_resource_WF hp hok,
   fun _ _ _ hp hreg hok => put_resource_WF hp hreg hok,
   fun _ _ hp hok => harvest_WF hp hok⟩

theorem spec_C3_invariant_amended_witness :
    WF (mkFreshPool 1 0 none) ∧
    (0 ≤ poolC.available ∧ poolC.available ≤ poolC.size ∧
      poolC.size ≤ (poolC.maxsize : Int)) :=
  ⟨spec_C3_invariant_amended.1 1 0 none (by decide),
   spec_C3_invariant_amended.2.1 poolC (by decide)⟩

/-! ### C8 -/

/-- Pool `capacity=2, overflow=0` with two resources made and both returned
in order: the available region is the FIFO `[resource 0, resource 1]`. -/
def c8pool : CuttlePool :=
  ⟨2, 0, none, [some ⟨0, some true⟩, some ⟨1, some true⟩], 0, 0, 2, 2, 2, 2⟩

/-- The operation chain that reaches `c8pool` from a fresh pool (one client:
two gets, two puts). -/
def c8setup : Except Err CuttlePool := do
  let (_, q1) ← (mkFreshPool 2 0 none).get_resource pingTrue
  let (_, q2) ← q1.get_resource pingTrue
  let q3 ← q2.put_resource 0
  q3.put_resource 1

/-- The round trip get; close; get on `c8pool`, returning the two underlying
resources obtained by the two gets. -/
def c8run : Except Err (Option Nat × Option Nat) := do
  let (w1, p1) ← c8pool.get_resource pingTrue
  let (_, p2) ← w1.close p1
  let (w2, _) ← p2.get_resource pingTrue
  pure (w1._resource, w2._resource)

/-- C8 counterexample: the round trip does not return the same resource on
every otherwise-idle pool.  `c8pool` is reached by a single client (two
gets, two puts); on it, get; close; get yields resource `0` from the first
get but resource `1` from the second: checkout is FIFO from the head, and
the closed resource was enqueued at the tail *behind* resource `1`. -/
theorem spec_C8_roundtrip_counterexample :
    c8setup = .ok c8pool ∧ WF c8pool ∧
    c8run = .ok (some 0, some 1) ∧ ¬ ((some 0 : Option Nat) = some 1) := by
  refine ⟨by decide, by decide, by decide, by decide⟩

/-- C8 amended: the round trip get; close; get yields the same underlying
resource whenever, at the first get, the otherwise-idle pool has at most one
available resource and no lost resource for harvest to recover (every
tracker of the unavailable region still has a live wrapper).  Under these
conditions the returned tracker is enqueued at the tail of an empty
available region, hence sits at the head for the second get.  The
counterexample shows the bound `available ≤ 1` is necessary. -/
theorem spec_C8_roundtrip_amended (p : CuttlePool) (w1 : Resource) (p1 : CuttlePool)
    (r : Nat) (h : WF p) (hav : p.available ≤ 1)
    (hno : ∀ i ∈ p.unavailable_range, ∀ rt, slot p.reference_queue i = some rt →
      rt.available = false)
    (hg : CuttlePool.get_resource pingTrue p = .ok (w1, p1))
    (hw : w1._resource = some r) :
    ∃ p2 w2 p3,
      Resource.close w1 p1 = .ok ({ _resource := none, _pool := false }, p2) ∧
      CuttlePool.get_resource pingTrue p2 = .ok (w2, p3) ∧
      w2._resource = some r := by
  have hq : (if p.empty = true then p._harvest_lost_resources else Except.ok p) = .ok p := by
    cases hpe : p.empty with
    | true => exact harvest_noop hno
    | false => rfl
  obtain ⟨b1, b2, b3⟩ := get_resource_branches pingTrue p p h hq h
  cases hpe : p.empty with
  | false =>
    obtain ⟨rt, hrt, heq⟩ := b1 hpe
    rw [heq, pingPhase_true rfl] at hg
    injection hg with hpair
    injection hpair with hw1 hp1
    subst hw1
    subst hp1
    have hwf1 := get_WF h hpe hrt
    have hslot1 := slot_set_self (lt_of_slot_eq_some hrt)
      (some { rt with wref := some true })
    have hmem1 := after_get_start_mem h hpe hrt
    have hone : p.available = 1 := by
      have h2 := avail_toNat_pos_of_not_empty h hpe
      have h3 := h.avail_nonneg
      omega
    have ha0 : CuttlePool.available { p with
        reference_queue := p.reference_queue.set p.resource_start
          (some { rt with wref := some true })
        resource_start := (p.resource_start + 1) % p.maxsize
        available := p.available - 1 } = 0 := by
      show p.available - 1 = 0
      omega
    obtain ⟨p2, w2, p3, hc, hg2, hw2⟩ := close_then_get hwf1 ha0 hslot1 hmem1
    have hr : rt.resource = r := Option.some_inj.mp hw
    refine ⟨p2, w2, p3, hc, hg2, ?_⟩
    rw [← hr]
    exact hw2
  | true =>
    cases hfind : p.unavailable_range.find? (fun u => slot p.reference_queue u == none) with
    | none =>
      have := b3 hpe hfind
      rw [this] at hg
      exact absurd hg (by simp)
    | some i =>
      have heq := b2 hpe i hfind
      rw [heq, pingPhase_true rfl] at hg
      injection hg with hpair
      injection hpair with hw1 hp1
      subst hw1
      subst hp1
      have hmem := make_found_mem hfind
      have hwfm := make_WF h hmem.1 hmem.2
      have hilen : i < p.reference_queue.length := by
        rw [h.len]
        exact unavailable_lt_maxsize h hmem.1
      have hslotm := slot_set_self hilen
        (some { resource := p.nextId, wref := some true })
      have ha0 : CuttlePool.available { p with
          reference_queue := p.reference_queue.set i
            (some { resource := p.nextId, wref := some true })
          size := p.size + 1
          nextId := p.nextId + 1 } = 0 := by
        show p.available = 0
        have h2 := (empty_iff_toNat h.avail_nonneg).mp hpe
        have h3 := h.avail_nonneg
        omega
      obtain ⟨p2, w2, p3, hc, hg2, hw2⟩ := close_then_get hwfm ha0 hslotm hmem.1
      have hr : p.nextId = r := Option.some_inj.mp hw
      refine ⟨p2, w2, p3, hc, hg2, ?_⟩
      rw [← hr]
      exact hw2

theorem spec_C8_roundtrip_amended_witness :
    WF poolC ∧
    (∃ p2 w2 p3,
      Resource.close { _resource := some 0, _pool := true } poolCg =
        .ok ({ _resource := none, _pool := false }, p2) ∧
      CuttlePool.get_resource pingTrue p2 = .ok (w2, p3) ∧
      w2._resource = some 0) :=
  ⟨by decide,
   spec_C8_roundtrip_amended poolC { _resource := some 0, _pool := true } poolCg 0
     (by decide) (by decide) (by decide) (by decide) rfl⟩
